import Mathlib

/-!
# Verification development for alezzscylla

Shallow embedding of

* `src/db/functions/function.cc` : the stateless aggregate function adapter,
* `src/auth/roles-metadata.cc`   : the two role-table lookups,
* `src/mutation_reader.hh`       : the declaration of `make_compacting_reader`
  (the body of the compacting reader is not part of the sources; it is
  modelled from the specification, see the section on compaction).
-/

set_option linter.unusedVariables false

/-! ## db/functions/function.cc -/

namespace db.functions

/-- Serialized value (`bytes` in the source). -/
abbrev bytes := List Nat

/-- Possibly-null serialized value (`bytes_opt`, an `std::optional<bytes>`). -/
abbrev bytes_opt := Option bytes

/-- Alias used by the `aggregate` interface (`opt_bytes`). -/
abbrev opt_bytes := bytes_opt

/-- CQL data type, identified by its name. -/
abbrev data_type := String

/-- The part of the `scalar_function` interface that `function.cc` calls:
`execute`, `return_type`, `is_pure`, `is_native`, `requires_thread`. -/
structure scalar_function where
  execute : List bytes_opt → bytes_opt
  return_type : data_type
  is_pure : Bool
  is_native : Bool
  requires_thread : Bool

/-- The record `stateless_aggregate_function` (declared in
`stateless_aggregate_function.hh`), with the fields `function.cc` reads.
A null `shared_ptr` is `none`. -/
structure stateless_aggregate_function where
  name : String
  column_name_override : Option String
  argument_types : List data_type
  result_type : data_type
  aggregation_function : scalar_function
  state_to_result_function : Option scalar_function
  state_reduction_function : Option scalar_function
  initial_state : bytes_opt

/-- Class `stateless_aggregate_function_adapter::aggregate_adapter`:
a reference to the aggregate description and the accumulator `_state`. -/
structure aggregate_adapter where
  _agg : stateless_aggregate_function
  _state : bytes_opt

namespace aggregate_adapter

/-- Constructor `aggregate_adapter(const stateless_aggregate_function& agg)`. -/
def create (agg : stateless_aggregate_function) : aggregate_adapter :=
  { _agg := agg, _state := agg.initial_state }

/-- Method `add_input`: the state is pushed first, the values are copied
after it, and the aggregation function's result becomes the new state. -/
def add_input (a : aggregate_adapter) (values : List opt_bytes) : aggregate_adapter :=
  let state_and_values : List bytes_opt := [a._state] ++ values
  { a with _state := a._agg.aggregation_function.execute state_and_values }

/-- Method `compute` (its return value). -/
def compute (a : aggregate_adapter) : opt_bytes :=
  match a._agg.state_to_result_function with
  | some f =>
    let state_vec : List bytes_opt := [a._state]
    f.execute state_vec
  | none => a._state

/-- Method `set_accumulator`. -/
def set_accumulator (a : aggregate_adapter) (acc : opt_bytes) : aggregate_adapter :=
  { a with _state := acc }

/-- Method `get_accumulator`. -/
def get_accumulator (a : aggregate_adapter) : opt_bytes :=
  a._state

/-- Method `reduce`; the source dereferences `state_reduction_function`
unconditionally, so a null pointer there has no result. -/
def reduce (a : aggregate_adapter) (acc : opt_bytes) : Option aggregate_adapter :=
  match a._agg.state_reduction_function with
  | some f =>
    let two_states : List bytes_opt := [a._state, acc]
    some { a with _state := f.execute two_states }
  | none => none

/-- Method `reset`. -/
def reset (a : aggregate_adapter) : aggregate_adapter :=
  { a with _state := a._agg.initial_state }

/-- Calls `add_input` once per row, in order. -/
def add_inputs (a : aggregate_adapter) (rows : List (List opt_bytes)) : aggregate_adapter :=
  rows.foldl add_input a

end aggregate_adapter

/-- Class `stateless_aggregate_function_adapter`: the description `_agg`
and the pointer `_reducible` (null is `none`). -/
inductive stateless_aggregate_function_adapter where
  | mk (_agg : stateless_aggregate_function)
      (_reducible : Option stateless_aggregate_function_adapter)

namespace stateless_aggregate_function_adapter

/-- Member `_agg`. -/
def _agg : stateless_aggregate_function_adapter → stateless_aggregate_function
  | mk a _ => a

/-- Member `_reducible`. -/
def _reducible : stateless_aggregate_function_adapter →
    Option stateless_aggregate_function_adapter
  | mk _ r => r

mutual

/-- Constructor `stateless_aggregate_function_adapter(agg, reducible_variant)`. -/
def create (agg : stateless_aggregate_function) (reducible_variant : Bool) :
    stateless_aggregate_function_adapter :=
  mk agg (if !reducible_variant then make_reducible_variant agg else none)
termination_by (if reducible_variant then 0 else 2)
decreasing_by
  all_goals simp_wf
  all_goals simp_all

/-- Static member `make_reducible_variant`. -/
def make_reducible_variant (agg : stateless_aggregate_function) :
    Option stateless_aggregate_function_adapter :=
  if agg.state_reduction_function.isNone then
    none
  else
    let new_agg : stateless_aggregate_function :=
      { agg with
        state_to_result_function := none
        result_type := agg.aggregation_function.return_type }
    some (create new_agg true)
termination_by 1
decreasing_by
  all_goals simp_wf

end

/-- Method `new_aggregate`. -/
def new_aggregate (f : stateless_aggregate_function_adapter) : aggregate_adapter :=
  aggregate_adapter.create f._agg

/-- Method `is_reducible`. -/
def is_reducible (f : stateless_aggregate_function_adapter) : Bool :=
  f._agg.state_reduction_function.isSome

/-- Method `reducible_aggregate_function`. -/
def reducible_aggregate_function (f : stateless_aggregate_function_adapter) :
    Option stateless_aggregate_function_adapter :=
  f._reducible

/-- Method `name`. -/
def name (f : stateless_aggregate_function_adapter) : String :=
  f._agg.name

/-- Method `arg_types`. -/
def arg_types (f : stateless_aggregate_function_adapter) : List data_type :=
  f._agg.argument_types

/-- Method `return_type`. -/
def return_type (f : stateless_aggregate_function_adapter) : data_type :=
  f._agg.result_type

/-- Method `is_pure`. -/
def is_pure (f : stateless_aggregate_function_adapter) : Bool :=
  f._agg.aggregation_function.is_pure
    && (match f._agg.state_to_result_function with
        | none => true
        | some g => g.is_pure)
    && (match f._agg.state_reduction_function with
        | none => true
        | some g => g.is_pure)

/-- Method `is_native`. -/
def is_native (f : stateless_aggregate_function_adapter) : Bool :=
  f._agg.aggregation_function.is_native
    && (match f._agg.state_to_result_function with
        | none => true
        | some g => g.is_native)
    && (match f._agg.state_reduction_function with
        | none => true
        | some g => g.is_native)

/-- Method `requires_thread`. -/
def requires_thread (f : stateless_aggregate_function_adapter) : Bool :=
  f._agg.aggregation_function.requires_thread
    || (match f._agg.state_to_result_function with
        | none => false
        | some g => g.requires_thread)
    || (match f._agg.state_reduction_function with
        | none => false
        | some g => g.requires_thread)

/-- Method `is_aggregate`. -/
def is_aggregate (f : stateless_aggregate_function_adapter) : Bool :=
  true

/-- Method `column_name`. -/
def column_name (f : stateless_aggregate_function_adapter) (column_names : List String) :
    String :=
  match f._agg.column_name_override with
  | some n => n
  | none => f._agg.name ++ "(" ++ ", ".intercalate column_names ++ ")"

end stateless_aggregate_function_adapter

end db.functions

/-! ## auth/roles-metadata.cc -/

namespace auth

/-- Consistency levels used by the two lookups (`db::consistency_level`). -/
inductive consistency_level where
  | ONE
  | QUORUM
deriving DecidableEq, Repr

/-- Flag `cql3::query_processor::cache_internal`. -/
inductive cache_internal where
  | yes
  | no
deriving DecidableEq, Repr

/-- A row of `system_auth.roles` as created by `creation_query`: the
primary-key column (named `role_col_name`) and the four other columns. -/
structure untyped_result_set_row where
  role : String
  can_login : Option Bool
  is_superuser : Option Bool
  member_of : List String
  salted_hash : Option String
deriving DecidableEq, Repr

/-- Result of an internal query: the rows, in order. -/
abbrev untyped_result_set := List untyped_result_set_row

/-- The query processor as the two functions use it: `execute_internal`
applied to the query text, the consistency level, the bound values and the
cache flag either fails (an exceptional future) or yields a result set; `one`
is `untyped_result_set::one`, declared outside these sources. -/
structure query_processor where
  execute_internal : String → consistency_level → List String → cache_internal →
    Except String untyped_result_set
  one : untyped_result_set → Except String untyped_result_set_row

/-- Constants of `auth::meta` declared outside these sources:
`DEFAULT_SUPERUSER_NAME` and `roles_table::role_col_name`. -/
structure meta_constants where
  DEFAULT_SUPERUSER_NAME : String
  role_col_name : String

namespace meta.roles_table

/-- Constant `qualified_name`. -/
def qualified_name : String := "system_auth.roles"

/-- Function `creation_query`. -/
def creation_query (m : meta_constants) : String :=
  "CREATE TABLE " ++ qualified_name ++ " ("
    ++ "  " ++ m.role_col_name ++ " text PRIMARY KEY,"
    ++ "  can_login boolean,"
    ++ "  is_superuser boolean,"
    ++ "  member_of set<text>,"
    ++ "  salted_hash text"
    ++ ")"

end meta.roles_table

/-- What a lookup does that is visible from outside: the internal queries
it issues and the rows it hands to the predicate, in order. -/
inductive lookup_event where
  | query (text : String) (cl : consistency_level) (values : List String)
      (cache : cache_internal)
  | predicate (row : untyped_result_set_row)
deriving DecidableEq, Repr

/-- The static `query` of `default_role_row_satisfies`. -/
def default_role_query (m : meta_constants) : String :=
  "SELECT * FROM " ++ meta.roles_table.qualified_name ++ " WHERE " ++ m.role_col_name ++ " = ?"

/-- The static `query` of `any_nondefault_role_row_satisfies`. -/
def all_roles_query : String :=
  "SELECT * FROM " ++ meta.roles_table.qualified_name

/-- Function `default_role_row_satisfies`: the events in the order they
happen, and the value of the returned future. -/
def default_role_row_satisfies (m : meta_constants) (qp : query_processor)
    (p : untyped_result_set_row → Bool) : List lookup_event × Except String Bool :=
  let query : String := default_role_query m
  let ev1 := lookup_event.query query .ONE [m.DEFAULT_SUPERUSER_NAME] .yes
  match qp.execute_internal query .ONE [m.DEFAULT_SUPERUSER_NAME] .yes with
  | .error e => ([ev1], .error e)
  | .ok results =>
    if results.isEmpty then
      let ev2 := lookup_event.query query .QUORUM [m.DEFAULT_SUPERUSER_NAME] .yes
      match qp.execute_internal query .QUORUM [m.DEFAULT_SUPERUSER_NAME] .yes with
      | .error e => ([ev1, ev2], .error e)
      | .ok results =>
        if results.isEmpty then
          ([ev1, ev2], .ok false)
        else
          match qp.one results with
          | .error e => ([ev1, ev2], .error e)
          | .ok row => ([ev1, ev2, .predicate row], .ok (p row))
    else
      match qp.one results with
      | .error e => ([ev1], .error e)
      | .ok row => ([ev1, .predicate row], .ok (p row))

/-- Function `any_nondefault_role_row_satisfies`. -/
def any_nondefault_role_row_satisfies (m : meta_constants) (qp : query_processor)
    (p : untyped_result_set_row → Bool) : Except String Bool :=
  let query : String := all_roles_query
  match qp.execute_internal query .QUORUM [] .no with
  | .error e => .error e
  | .ok results =>
    if results.isEmpty then
      .ok false
    else
      .ok (results.any (fun row =>
        let is_nondefault : Bool := row.role != m.DEFAULT_SUPERUSER_NAME
        is_nondefault && p row))

end auth

/-! ## mutation_reader.hh: the compacting reader

The header declares `make_compacting_reader`; its body and the compactor it
uses are not part of the sources.  The definitions of this section are
modelled from the specification (sections 3, 4 and 6). -/

namespace streamed_mutation

/-- Modelled from the spec: the type `streamed_mutation::forwarding` of the
declaration is not in the sources; section 6 gives its two values, `none`
(here `no`) and `intra_partition` (here `yes`). -/
inductive forwarding where
  | no
  | yes
deriving DecidableEq, Repr

end streamed_mutation

namespace compaction

/-- Modelled from the spec: the tombstone type is not in the sources.  The
deletion timestamp of section 3, a logical time value paired with a gc
time. -/
structure deletion_timestamp where
  timestamp : Int
  gc_time : Nat
deriving DecidableEq, Repr

/-- Modelled from the spec: the cell type is not in the sources.  A cell of a
row (section 3), tagged with its own write timestamp; `column` tells which
cell of the row it is. -/
structure cell where
  column : Nat
  timestamp : Int
  value : Nat
deriving DecidableEq, Repr

/-- Modelled from the spec: a range-tombstone change marks the start or the
end of a deletion range (section 3). -/
inductive bound_kind where
  | range_start
  | range_end
deriving DecidableEq, Repr

/-- Modelled from the spec: the fragment type of
`readers/flat_mutation_reader_v2.hh` is not in the sources.  The mutation
fragment of section 3, a tagged union of five kinds.  Partition keys and
clustering positions are natural numbers in their stream order. -/
inductive mutation_fragment where
  | partition_start (key : Nat) (tomb : Option deletion_timestamp)
  | static_row (cells : List cell)
  | clustered_row (pos : Nat) (tomb : Option deletion_timestamp) (cells : List cell)
  | range_tombstone_change (pos : Nat) (kind : bound_kind) (del : deletion_timestamp)
  | partition_end
deriving DecidableEq, Repr

/-- Modelled from the spec: the error taxonomy of section 7. -/
inductive error_kind where
  | io_failure
  | capability_unsupported
  | misuse
  | stream_corruption
deriving DecidableEq, Repr

/-- Modelled from the spec: the fragments of one partition between its
partition-start and its partition-end. -/
structure partition where
  key : Nat
  tomb : Option deletion_timestamp
  body : List mutation_fragment
deriving DecidableEq, Repr

open mutation_fragment bound_kind

/-- Whether the fragment is a static or a clustered row. -/
def mutation_fragment.is_row : mutation_fragment → Bool
  | static_row _ => true
  | clustered_row _ _ _ => true
  | _ => false

/-- Whether the fragment is a range-tombstone change. -/
def mutation_fragment.is_range_change : mutation_fragment → Bool
  | range_tombstone_change _ _ _ => true
  | _ => false

/-- The cells of a row; other fragments hold none. -/
def mutation_fragment.cells : mutation_fragment → List cell
  | static_row cells => cells
  | clustered_row _ _ cells => cells
  | _ => []

/-- The row tombstone of a clustered row. -/
def mutation_fragment.row_tomb : mutation_fragment → Option deletion_timestamp
  | clustered_row _ tomb _ => tomb
  | _ => none

/-- Whether two rows target the same position: two static rows, or two
clustered rows at one clustering position. -/
def same_position : mutation_fragment → mutation_fragment → Bool
  | static_row _, static_row _ => true
  | clustered_row p1 _ _, clustered_row p2 _ _ => decide (p1 = p2)
  | _, _ => false

/-! ### Reading a stream as a sequence of partitions (invariant 1) -/

/-- Modelled from the spec: invariant 1 of section 3.  Reads the flat stream
as partitions; `cur` is the partition in progress, its body reversed.  There
is no result when a partition-start is nested, a fragment lies outside a
partition, or the stream ends inside a partition. -/
def parse_partitions_from :
    Option (Nat × Option deletion_timestamp × List mutation_fragment) →
    List mutation_fragment → Option (List partition)
  | none, [] => some []
  | some _, [] => none
  | none, partition_start k t :: rest => parse_partitions_from (some (k, t, [])) rest
  | some _, partition_start _ _ :: _ => none
  | some (k, t, b), partition_end :: rest =>
    (parse_partitions_from none rest).map (fun ps => ⟨k, t, b.reverse⟩ :: ps)
  | none, partition_end :: _ => none
  | some (k, t, b), f :: rest => parse_partitions_from (some (k, t, f :: b)) rest
  | none, _ :: _ => none

/-- Modelled from the spec: the stream as a sequence of partitions. -/
def parse_partitions (s : List mutation_fragment) : Option (List partition) :=
  parse_partitions_from none s

/-- Modelled from the spec: the flat fragment sequence of one partition. -/
def partition.fragments (p : partition) : List mutation_fragment :=
  partition_start p.key p.tomb :: p.body ++ [partition_end]

/-! ### Validity of a stream (invariants 2, 3 and 5) -/

/-- Modelled from the spec: place of a fragment in the clustering order of
its partition.  The static row has no clustering position and comes first; a
range bound at position `p` comes before the row at `p`, so that a range from
`p` to `q` covers the rows at `p, .., q - 1`.  Partition boundaries are not
part of a body. -/
def order_key : mutation_fragment → Nat
  | static_row _ => 1
  | range_tombstone_change pos _ _ => 2 * pos + 2
  | clustered_row pos _ _ => 2 * pos + 3
  | _ => 0

/-- Non-decreasing sequence of numbers. -/
def nondecreasing : List Nat → Bool
  | [] => true
  | [_] => true
  | a :: b :: rest => decide (a ≤ b) && nondecreasing (b :: rest)

/-- Strictly increasing sequence of numbers. -/
def increasing : List Nat → Bool
  | [] => true
  | [_] => true
  | a :: b :: rest => decide (a < b) && increasing (b :: rest)

/-- Modelled from the spec: invariant 3.  Range-tombstone changes are
balanced and do not overlap: starts and ends alternate, an end carries the
deletion timestamp of the range it closes, and no range is open at the end of
the partition.  `cur` is the range open so far. -/
def balanced : Option deletion_timestamp → List mutation_fragment → Bool
  | cur, [] => cur.isNone
  | none, range_tombstone_change _ range_start d :: rest => balanced (some d) rest
  | some _, range_tombstone_change _ range_start _ :: _ => false
  | some o, range_tombstone_change _ range_end d :: rest => decide (o = d) && balanced none rest
  | none, range_tombstone_change _ range_end _ :: _ => false
  | cur, _ :: rest => balanced cur rest

/-- Modelled from the spec: invariants 2 and 3 for the body of a partition. -/
def valid_body (body : List mutation_fragment) : Bool :=
  nondecreasing (body.map order_key) && balanced none body

/-- Modelled from the spec: invariants 2, 3 and 5 for a sequence of
partitions. -/
def valid_partitions (ps : List partition) : Bool :=
  increasing (ps.map (fun p => p.key)) && ps.all (fun p => valid_body p.body)

/-- Modelled from the spec: a valid stream (invariants 1, 2, 3 and 5 of
section 3). -/
def valid_stream (s : List mutation_fragment) : Bool :=
  match parse_partitions s with
  | none => false
  | some ps => valid_partitions ps

/-- Two fragments in clustering order, no two rows at the same place. -/
def strictly_ordered (a b : mutation_fragment) : Prop :=
  order_key a ≤ order_key b ∧ (a.is_row = true → b.is_row = true → order_key a ≠ order_key b)

/-! ### The compactor (section 4.2) -/

/-- The larger of two optional deletion times, none meaning no deletion. -/
def max_deletion : Option Int → Option Int → Option Int
  | none, b => b
  | a, none => a
  | some x, some y => some (max x y)

/-- Modelled from the spec: the maximum covering deletion timestamp at a
row, the maximum of the partition tombstone, the currently open range
tombstone and the row tombstone. -/
def covering_deletion (ptomb open_rt row_tomb : Option deletion_timestamp) : Option Int :=
  max_deletion
    (max_deletion (ptomb.map (fun d => d.timestamp)) (open_rt.map (fun d => d.timestamp)))
    (row_tomb.map (fun d => d.timestamp))

/-- Modelled from the spec: invariant 4.  A cell with write timestamp `C` is
live relative to a covering deletion timestamp `T` iff `C > T`. -/
def cell.live (T : Option Int) (c : cell) : Bool :=
  match T with
  | none => true
  | some t => decide (c.timestamp > t)

/-- Modelled from the spec: the purge rule of section 4.2.  A cell is dropped
when its timestamp is at most the purge threshold and it is shadowed. -/
def cell.dropped (threshold : Int) (T : Option Int) (c : cell) : Bool :=
  decide (c.timestamp ≤ threshold) && !c.live T

/-- Modelled from the spec: the cells a row retains. -/
def retained_cells (threshold : Int) (T : Option Int) (cells : List cell) : List cell :=
  cells.filter (fun c => !c.dropped threshold T)

/-- Modelled from the spec: a row is emitted only if it retains at least
one live cell or a row tombstone whose timestamp is above the purge
threshold. -/
def row_emitted (threshold : Int) (T : Option Int) (tomb : Option deletion_timestamp)
    (cells : List cell) : Bool :=
  (retained_cells threshold T cells).any (fun c => c.live T)
    || (match tomb with
        | some d => decide (d.timestamp > threshold)
        | none => false)

/-- Modelled from the spec: per-fragment processing of a static or clustered
row, given the partition tombstone, the purge threshold and the currently
open range tombstone: the row with the cells it retains, or nothing when the
row is not emitted.  Other fragments pass. -/
def compact_row (ptomb : Option deletion_timestamp) (threshold : Int)
    (open_rt : Option deletion_timestamp) : mutation_fragment → Option mutation_fragment
  | static_row cells =>
    let T := covering_deletion ptomb open_rt none
    if row_emitted threshold T none cells then
      some (static_row (retained_cells threshold T cells))
    else none
  | clustered_row pos tomb cells =>
    let T := covering_deletion ptomb open_rt tomb
    if row_emitted threshold T tomb cells then
      some (clustered_row pos tomb (retained_cells threshold T cells))
    else none
  | f => some f

/-- Modelled from the spec: coalescing keeps, per cell, the higher
timestamp.  Adds one cell to the cells of a row. -/
def insert_cell : List cell → cell → List cell
  | [], c => [c]
  | a :: rest, c =>
    if a.column = c.column then
      (if c.timestamp > a.timestamp then c else a) :: rest
    else a :: insert_cell rest c

/-- Modelled from the spec: the cells of two coalesced fragments. -/
def merge_cells (a b : List cell) : List cell :=
  b.foldl insert_cell a

/-- The row tombstone of two coalesced fragments: the later deletion (the
specification names the cells only). -/
def merge_tomb : Option deletion_timestamp → Option deletion_timestamp →
    Option deletion_timestamp
  | none, b => b
  | a, none => a
  | some x, some y => if y.timestamp > x.timestamp then some y else some x

/-- Modelled from the spec: two fragments targeting the same position
coalesced into one fragment, keeping per cell the higher timestamp. -/
def merge_rows : mutation_fragment → mutation_fragment → mutation_fragment
  | clustered_row p t1 c1, clustered_row _ t2 c2 =>
    clustered_row p (merge_tomb t1 t2) (merge_cells c1 c2)
  | static_row c1, static_row c2 => static_row (merge_cells c1 c2)
  | f, _ => f

/-- Modelled from the spec: puts a fragment in front of an already coalesced
sequence, merging it with the first fragment when both are rows targeting
the same position (two clustered rows at one clustering position, or two
static rows). -/
def coalesce_push (f : mutation_fragment) (out : List mutation_fragment) :
    List mutation_fragment :=
  match out with
  | [] => [f]
  | h :: rest => if same_position f h then merge_rows f h :: rest else f :: h :: rest

/-- Modelled from the spec: duplicate fragments targeting the same
clustering position are coalesced into one fragment. -/
def coalesce (body : List mutation_fragment) : List mutation_fragment :=
  body.foldr coalesce_push []

/-- Modelled from the spec: the range tombstone open after a fragment. -/
def open_after (open_rt : Option deletion_timestamp) :
    mutation_fragment → Option deletion_timestamp
  | range_tombstone_change _ range_start d => some d
  | range_tombstone_change _ range_end _ => none
  | _ => open_rt

/-- Modelled from the spec: the range tombstone open after a sequence of
fragments. -/
def open_after_all (open_rt : Option deletion_timestamp) (fs : List mutation_fragment) :
    Option deletion_timestamp :=
  fs.foldl open_after open_rt

/-- Modelled from the spec: rows are compacted in stream order, the
compactor carrying the currently open range tombstone. -/
def compact_rows (ptomb : Option deletion_timestamp) (threshold : Int) :
    Option deletion_timestamp → List mutation_fragment → List mutation_fragment
  | _, [] => []
  | open_rt, f :: rest =>
    (compact_row ptomb threshold open_rt f).toList
      ++ compact_rows ptomb threshold (open_after open_rt f) rest

/-- Modelled from the spec: a closing/opening pair is dropped entirely if
its timestamp is at most the purge threshold and it covers no surviving row.
Puts a fragment in front of an already purged sequence of surviving
fragments; a pair that covers no surviving row is a start immediately
followed by its end. -/
def purge_push (threshold : Int) (f : mutation_fragment) (out : List mutation_fragment) :
    List mutation_fragment :=
  match f, out with
  | range_tombstone_change _ range_start d, range_tombstone_change _ range_end _ :: rest =>
    if d.timestamp ≤ threshold then rest else f :: out
  | _, _ => f :: out

/-- Modelled from the spec: the surviving fragments without the purged
range-tombstone pairs. -/
def purge_ranges (threshold : Int) (fs : List mutation_fragment) : List mutation_fragment :=
  fs.foldr (purge_push threshold) []

/-- Modelled from the spec: abutting deletions with equal deletion timestamp
are merged into one run.  Puts a fragment in front of an already merged
sequence; an end immediately followed by a start at the same position with
the same deletion timestamp is removed together with it. -/
def merge_push (f : mutation_fragment) (out : List mutation_fragment) :
    List mutation_fragment :=
  match f, out with
  | range_tombstone_change p1 range_end d1, range_tombstone_change p2 range_start d2 :: rest =>
    if p1 = p2 ∧ d1 = d2 then rest else f :: out
  | _, _ => f :: out

/-- Modelled from the spec: the retained fragments in minimal
representation. -/
def merge_runs (fs : List mutation_fragment) : List mutation_fragment :=
  fs.foldr merge_push []

/-- Modelled from the spec: the fragments retained between the
partition-start and the partition-end of one partition. -/
def compact_body (ptomb : Option deletion_timestamp) (threshold : Int)
    (body : List mutation_fragment) : List mutation_fragment :=
  merge_runs (purge_ranges threshold (compact_rows ptomb threshold none (coalesce body)))

/-- Modelled from the spec: whether the partition tombstone survives above
the purge threshold. -/
def tombstone_survives (threshold : Int) : Option deletion_timestamp → Bool
  | some d => decide (d.timestamp > threshold)
  | none => false

/-- Modelled from the spec: the `mutation_compactor` named in the comment of
`make_compacting_reader` is not in the sources.  The compactor of section 4.2
on one partition.  The emission of the partition-start is deferred; if no
fragment was emitted for the partition and no partition tombstone survives
above the threshold, the partition produces nothing; otherwise the
partition-start, the retained fragments and the partition-end are emitted.
`compaction_time` is received as section 6 says; no rule of section 4.2 reads
it. -/
def compact_partition (compaction_time : Nat) (threshold : Int) (p : partition) :
    List mutation_fragment :=
  let retained := compact_body p.tomb threshold p.body
  if retained.isEmpty && !tombstone_survives threshold p.tomb then []
  else partition_start p.key p.tomb :: retained ++ [partition_end]

/-- Modelled from the spec: the `mutation_compactor` is not in the sources.
The compactor on a whole stream.  An invariant violation in the incoming
sequence fails with stream-corruption; the purge threshold of a partition is
obtained from the purge oracle with the partition's key. -/
def compact_stream (compaction_time : Nat) (purge_oracle : Nat → Int)
    (s : List mutation_fragment) : Except error_kind (List mutation_fragment) :=
  match parse_partitions s with
  | none => .error .stream_corruption
  | some ps =>
    if valid_partitions ps then
      .ok ((ps.map (fun p => compact_partition compaction_time (purge_oracle p.key) p)).flatten)
    else .error .stream_corruption

/-- Modelled from the spec: the reader type `flat_mutation_reader_v2` is not
in the sources.  A mutation stream source (section 4.1) as the compacting
reader sees it: what draining `produce_next()` yields (the fragments up to
end-of-stream, or the failure that ends the stream), and which optional
forwarding capabilities it reports. -/
structure mutation_stream_source where
  production : Except error_kind (List mutation_fragment)
  supports_next_partition : Bool
  supports_partition_range_forwarding : Bool
  supports_position_range_forwarding : Bool

end compaction

open compaction in
/-- Modelled from the spec: `make_compacting_reader` is only declared in
`mutation_reader.hh`; its body is not in the sources.  Section 6 and 4.3:
construction fails with capability-unsupported if intra-partition forwarding
is requested and the source does not provide it; otherwise the reader is
itself a mutation stream source that produces the compacted stream of its
source, a failure of the source being propagated unchanged, and supports a
forwarding method if the source supports it. -/
def make_compacting_reader (source : mutation_stream_source) (compaction_time : Nat)
    (get_max_purgeable : Nat → Int) (fwd : streamed_mutation.forwarding) :
    Except error_kind mutation_stream_source :=
  if fwd = .yes ∧ source.supports_position_range_forwarding = false then
    .error .capability_unsupported
  else
    .ok { source with
      production :=
        match source.production with
        | .error e => .error e
        | .ok s => compact_stream compaction_time get_max_purgeable s }

/-! ## Concrete inputs -/

namespace db.functions

/-- An aggregation function that counts the rows it is given. -/
def count_rows : scalar_function :=
  { execute := fun args =>
      match args with
      | some (n :: _) :: _ => some [n + 1]
      | _ => some [1]
    return_type := "bigint"
    is_pure := true
    is_native := true
    requires_thread := false }

/-- A reduction function that adds two counts. -/
def add_counts : scalar_function :=
  { execute := fun args =>
      match args with
      | [some (a :: _), some (b :: _)] => some [a + b]
      | _ => none
    return_type := "bigint"
    is_pure := true
    is_native := true
    requires_thread := false }

/-- A final function that doubles the count. -/
def double_count : scalar_function :=
  { execute := fun args =>
      match args with
      | [some (a :: _)] => some [2 * a]
      | _ => none
    return_type := "varint"
    is_pure := true
    is_native := true
    requires_thread := false }

/-- A reducible aggregate with a final function. -/
def doubled_count : stateless_aggregate_function :=
  { name := "doubled_count"
    column_name_override := none
    argument_types := ["int"]
    result_type := "varint"
    aggregation_function := count_rows
    state_to_result_function := some double_count
    state_reduction_function := some add_counts
    initial_state := some [0] }

end db.functions

namespace auth

/-- The constants as ScyllaDB sets them. -/
def scylla_constants : meta_constants :=
  { DEFAULT_SUPERUSER_NAME := "cassandra", role_col_name := "role" }

/-- The row of the default superuser. -/
def cassandra_row : untyped_result_set_row :=
  { role := "cassandra", can_login := some true, is_superuser := some true,
    member_of := [], salted_hash := none }

/-- The row of another superuser. -/
def alice_row : untyped_result_set_row :=
  { role := "alice", can_login := some true, is_superuser := some true,
    member_of := [], salted_hash := none }

/-- Accessor `one`: the row of a result set that holds exactly one. -/
def one_row : untyped_result_set → Except String untyped_result_set_row
  | [r] => .ok r
  | _ => .error "One row required"

/-- A query processor whose roles table holds the two rows. -/
def two_role_processor : query_processor :=
  { execute_internal := fun _ _ _ _ => .ok [cassandra_row, alice_row]
    one := one_row }

/-- A query processor that sees the default superuser at QUORUM only. -/
def quorum_only_processor : query_processor :=
  { execute_internal := fun _ cl _ _ =>
      match cl with
      | .ONE => .ok []
      | .QUORUM => .ok [cassandra_row]
    one := one_row }

/-- The predicate "is a superuser". -/
def row_is_superuser (row : untyped_result_set_row) : Bool :=
  row.is_superuser == some true

end auth

namespace compaction

open mutation_fragment bound_kind

/-- A source that produces the given fragments and supports no forwarding. -/
def source_of (s : List mutation_fragment) : mutation_stream_source :=
  { production := .ok s
    supports_next_partition := false
    supports_partition_range_forwarding := false
    supports_position_range_forwarding := false }

/-- Scenario 1 of section 8: a partition tombstone at 5 over one row with a
cell written at 3. -/
def purged_row_stream : List mutation_fragment :=
  [partition_start 1 (some ⟨5, 0⟩), clustered_row 7 none [⟨0, 3, 0⟩], partition_end]

/-- A partition without tombstone whose only row lies under a range
tombstone written at 20. -/
def live_range_stream : List mutation_fragment :=
  [partition_start 1 none,
   range_tombstone_change 1 range_start ⟨20, 0⟩,
   clustered_row 2 none [⟨0, 3, 0⟩],
   range_tombstone_change 5 range_end ⟨20, 0⟩,
   partition_end]

/-- Two rows at clustering position 7 under a partition tombstone at 5,
their cells written at 3 and 4. -/
def purged_duplicates_stream : List mutation_fragment :=
  [partition_start 1 (some ⟨5, 0⟩),
   clustered_row 7 none [⟨0, 3, 0⟩],
   clustered_row 7 none [⟨0, 4, 0⟩],
   partition_end]

/-- Scenario 3 of section 8: two rows at clustering position 7 with the
same cell written at 7 and at 9. -/
def duplicates_stream : List mutation_fragment :=
  [partition_start 1 none,
   clustered_row 7 none [⟨0, 7, 0⟩],
   clustered_row 7 none [⟨0, 9, 0⟩],
   partition_end]

end compaction

/-! # Theorems -/

/-! ## The aggregate adapter -/

namespace db.functions

open stateless_aggregate_function_adapter in
/-- The constructor stores the description unchanged. -/
theorem create_agg (agg : stateless_aggregate_function) (b : Bool) :
    (create agg b)._agg = agg := by
  rw [create]; rfl

open stateless_aggregate_function_adapter in
/-- The pointer stored by the constructor. -/
theorem create_reducible (agg : stateless_aggregate_function) (b : Bool) :
    (create agg b)._reducible = if !b then make_reducible_variant agg else none := by
  rw [create]; rfl

/-- Feeding rows never changes the description an aggregate refers to. -/
theorem add_inputs_agg (rows : List (List opt_bytes)) (a : aggregate_adapter) :
    (a.add_inputs rows)._agg = a._agg := by
  induction rows generalizing a with
  | nil => rfl
  | cons v rest ih =>
    show (aggregate_adapter.add_inputs (a.add_input v) rest)._agg = a._agg
    rw [ih]; rfl

/-- The accumulator after feeding rows is the left fold of the aggregation
function, the state being the first argument. -/
theorem add_inputs_state (rows : List (List opt_bytes)) (a : aggregate_adapter) :
    (a.add_inputs rows)._state =
      rows.foldl (fun s v => a._agg.aggregation_function.execute ([s] ++ v)) a._state := by
  induction rows generalizing a with
  | nil => rfl
  | cons v rest ih =>
    show (aggregate_adapter.add_inputs (a.add_input v) rest)._state = _
    rw [ih]; rfl

open stateless_aggregate_function_adapter in
/-- A fresh aggregate refers to the adapter's description and starts from
its initial state. -/
theorem new_aggregate_create (agg : stateless_aggregate_function) (b : Bool) :
    (create agg b).new_aggregate = { _agg := agg, _state := agg.initial_state } := by
  unfold new_aggregate aggregate_adapter.create
  rw [create_agg]

/-- The value of `compute` after feeding rows to a fresh aggregate. -/
theorem compute_add_inputs (agg : stateless_aggregate_function)
    (rows : List (List opt_bytes)) :
    (aggregate_adapter.add_inputs { _agg := agg, _state := agg.initial_state } rows).compute
      = (match agg.state_to_result_function with
         | some f => f.execute [rows.foldl
             (fun s v => agg.aggregation_function.execute ([s] ++ v)) agg.initial_state]
         | none => rows.foldl
             (fun s v => agg.aggregation_function.execute ([s] ++ v)) agg.initial_state) := by
  unfold aggregate_adapter.compute
  rw [add_inputs_agg, add_inputs_state]

open stateless_aggregate_function_adapter in
/-- C6: an aggregate freshly obtained from `new_aggregate()` and fed the rows
`v1..vn` in order holds `s_n`, where `s_0 = agg.initial_state` and
`s_i = aggregation_function.execute([s_(i-1)] ++ v_i)`; `compute()` returns
`state_to_result_function.execute([s_n])` when that function is set and `s_n`
when it is not. -/
theorem aggregate_adapter_is_fold_of_scalar_functions
    (agg : stateless_aggregate_function) (reducible_variant : Bool)
    (rows : List (List opt_bytes)) :
    ((create agg reducible_variant).new_aggregate.add_inputs rows).get_accumulator
        = rows.foldl (fun s v => agg.aggregation_function.execute ([s] ++ v)) agg.initial_state
      ∧ ((create agg reducible_variant).new_aggregate.add_inputs rows).compute
        = (match agg.state_to_result_function with
           | some f => f.execute [rows.foldl
               (fun s v => agg.aggregation_function.execute ([s] ++ v)) agg.initial_state]
           | none => rows.foldl
               (fun s v => agg.aggregation_function.execute ([s] ++ v)) agg.initial_state) := by
  rw [new_aggregate_create]
  exact ⟨add_inputs_state rows _, compute_add_inputs agg rows⟩

open stateless_aggregate_function_adapter in
/-- C9: with a state reduction function, the adapter built with
`reducible_variant = false` holds a non-null reducible adapter `R` whose
description is `agg` without `state_to_result_function` and with the
aggregation function's return type as result type; an aggregate of `R`
computes the raw accumulator of the original, and the original's `compute()`
is `state_to_result_function` applied to it (or equal to it when there is no
such function). Without a state reduction function the pointer is null and
`is_reducible()` is false. -/
theorem reducible_variant_computes_raw_accumulator (agg : stateless_aggregate_function) :
    (agg.state_reduction_function.isSome = true →
      ∃ R, (create agg false).reducible_aggregate_function = some R
        ∧ (create agg false).is_reducible = true
        ∧ R._agg = { agg with
            state_to_result_function := none
            result_type := agg.aggregation_function.return_type }
        ∧ R.return_type = agg.aggregation_function.return_type
        ∧ R.reducible_aggregate_function = none
        ∧ ∀ rows : List (List opt_bytes),
            (R.new_aggregate.add_inputs rows).compute
                = ((create agg false).new_aggregate.add_inputs rows).get_accumulator
            ∧ (R.new_aggregate.add_inputs rows).compute
                = rows.foldl (fun s v => agg.aggregation_function.execute ([s] ++ v))
                    agg.initial_state
            ∧ ((create agg false).new_aggregate.add_inputs rows).compute
                = (match agg.state_to_result_function with
                   | some f => f.execute [(R.new_aggregate.add_inputs rows).compute]
                   | none => (R.new_aggregate.add_inputs rows).compute))
    ∧ (agg.state_reduction_function.isSome = false →
        (create agg false).reducible_aggregate_function = none
          ∧ (create agg false).is_reducible = false) := by
  constructor
  · intro h
    have hne : agg.state_reduction_function.isNone = false := by
      cases hr : agg.state_reduction_function <;> simp_all
    refine ⟨create { agg with
            state_to_result_function := none
            result_type := agg.aggregation_function.return_type } true, ?_, ?_, ?_, ?_, ?_, ?_⟩
    · simp [reducible_aggregate_function, create_reducible, make_reducible_variant, hne]
    · simp [is_reducible, create_agg, h]
    · rw [create_agg]
    · simp [return_type, create_agg]
    · simp [reducible_aggregate_function, create_reducible]
    · intro rows
      have hR := compute_add_inputs { agg with
            state_to_result_function := none
            result_type := agg.aggregation_function.return_type } rows
      simp only at hR
      rw [new_aggregate_create, new_aggregate_create, hR, compute_add_inputs]
      exact ⟨(add_inputs_state rows { _agg := agg, _state := agg.initial_state }).symm, rfl, rfl⟩
  · intro h
    have hn : agg.state_reduction_function.isNone = true := by
      cases hr : agg.state_reduction_function <;> simp_all
    constructor
    · simp [reducible_aggregate_function, create_reducible, make_reducible_variant, hn]
    · simp [is_reducible, create_agg, h]

end db.functions

/-! ## The role-table lookups -/

namespace auth

/-- C7: on the result set of the roles-table query,
`any_nondefault_role_row_satisfies` yields true exactly when some row has a
role name other than `DEFAULT_SUPERUSER_NAME` and satisfies `p`; it yields
false on an empty result set and when only rows of the default superuser
satisfy `p`. -/
theorem any_nondefault_role_row_satisfies_iff (m : meta_constants) (qp : query_processor)
    (p : untyped_result_set_row → Bool) (results : untyped_result_set)
    (hq : qp.execute_internal all_roles_query .QUORUM [] .no = .ok results) :
    ∃ b : Bool, any_nondefault_role_row_satisfies m qp p = .ok b
      ∧ (b = true ↔ ∃ row ∈ results, row.role ≠ m.DEFAULT_SUPERUSER_NAME ∧ p row = true)
      ∧ (results = [] → b = false)
      ∧ ((∀ row ∈ results, p row = true → row.role = m.DEFAULT_SUPERUSER_NAME) → b = false) := by
  have key : ∀ rs : untyped_result_set,
      (rs.any (fun row => (row.role != m.DEFAULT_SUPERUSER_NAME) && p row) = true
        ↔ ∃ row ∈ rs, row.role ≠ m.DEFAULT_SUPERUSER_NAME ∧ p row = true) := by
    intro rs
    simp [List.any_eq_true]
  unfold any_nondefault_role_row_satisfies
  simp only [hq]
  cases results with
  | nil =>
    refine ⟨false, by simp, by simp, by simp, by simp⟩
  | cons r rs =>
    refine ⟨(r :: rs).any (fun row => (row.role != m.DEFAULT_SUPERUSER_NAME) && p row),
      by simp, key (r :: rs), by simp, ?_⟩
    intro h
    rw [Bool.eq_false_iff]
    intro ht
    obtain ⟨row, hmem, hne, hp⟩ := (key (r :: rs)).1 ht
    exact hne (h row hmem hp)

/-- C8: `default_role_row_satisfies` asks at consistency ONE first; a
non-empty answer decides with `p` on its row and no QUORUM query is issued;
an empty answer leads to the QUORUM query, whose non-empty answer decides
with `p` on its row, and whose empty answer yields false without `p` being
called. -/
theorem default_role_row_satisfies_cases (m : meta_constants) (qp : query_processor)
    (p : untyped_result_set_row → Bool) :
    (∀ r_one row,
        qp.execute_internal (default_role_query m) .ONE [m.DEFAULT_SUPERUSER_NAME] .yes
          = .ok r_one →
        r_one ≠ [] → qp.one r_one = .ok row →
        default_role_row_satisfies m qp p =
          ([.query (default_role_query m) .ONE [m.DEFAULT_SUPERUSER_NAME] .yes,
            .predicate row], .ok (p row)))
    ∧ (∀ r_quorum row,
        qp.execute_internal (default_role_query m) .ONE [m.DEFAULT_SUPERUSER_NAME] .yes
          = .ok [] →
        qp.execute_internal (default_role_query m) .QUORUM [m.DEFAULT_SUPERUSER_NAME] .yes
          = .ok r_quorum →
        r_quorum ≠ [] → qp.one r_quorum = .ok row →
        default_role_row_satisfies m qp p =
          ([.query (default_role_query m) .ONE [m.DEFAULT_SUPERUSER_NAME] .yes,
            .query (default_role_query m) .QUORUM [m.DEFAULT_SUPERUSER_NAME] .yes,
            .predicate row], .ok (p row)))
    ∧ (qp.execute_internal (default_role_query m) .ONE [m.DEFAULT_SUPERUSER_NAME] .yes
          = .ok [] →
        qp.execute_internal (default_role_query m) .QUORUM [m.DEFAULT_SUPERUSER_NAME] .yes
          = .ok [] →
        default_role_row_satisfies m qp p =
          ([.query (default_role_query m) .ONE [m.DEFAULT_SUPERUSER_NAME] .yes,
            .query (default_role_query m) .QUORUM [m.DEFAULT_SUPERUSER_NAME] .yes],
           .ok false)) := by
  refine ⟨?_, ?_, ?_⟩
  · intro r_one row h1 hne hone
    unfold default_role_row_satisfies
    simp only [h1]
    cases r_one with
    | nil => exact absurd rfl hne
    | cons r rs => simp [hone]
  · intro r_quorum row h1 h2 hne hone
    unfold default_role_row_satisfies
    simp only [h1, h2]
    cases r_quorum with
    | nil => exact absurd rfl hne
    | cons r rs => simp [hone]
  · intro h1 h2
    unfold default_role_row_satisfies
    simp [h1, h2]

end auth

/-! ## The compacting reader -/

namespace compaction
open mutation_fragment bound_kind

theorem purge_ranges_cons (thr : Int) (f : mutation_fragment) (L : List mutation_fragment) :
    purge_ranges thr (f :: L) = purge_push thr f (purge_ranges thr L) := rfl

theorem merge_runs_cons (f : mutation_fragment) (L : List mutation_fragment) :
    merge_runs (f :: L) = merge_push f (merge_runs L) := rfl

theorem coalesce_cons (f : mutation_fragment) (L : List mutation_fragment) :
    coalesce (f :: L) = coalesce_push f (coalesce L) := rfl

/-- A row is in a purged sequence exactly when it was there before. -/
theorem mem_purge_push_row {thr : Int} {g f : mutation_fragment} {out : List mutation_fragment}
    (hf : f.is_row = true) : f ∈ purge_push thr g out ↔ f = g ∨ f ∈ out := by
  unfold purge_push
  split
  · split
    · constructor
      · intro h; exact Or.inr (List.mem_cons_of_mem _ h)
      · rintro (h | h)
        · subst h; simp [mutation_fragment.is_row] at hf
        · rcases List.mem_cons.1 h with h | h
          · subst h; simp [mutation_fragment.is_row] at hf
          · exact h
    · simp
  · simp

theorem mem_purge_ranges_row {thr : Int} {f : mutation_fragment} (hf : f.is_row = true)
    (L : List mutation_fragment) : f ∈ purge_ranges thr L ↔ f ∈ L := by
  induction L with
  | nil => simp [purge_ranges]
  | cons g L ih => rw [purge_ranges_cons, mem_purge_push_row hf, ih]; simp

theorem mem_merge_push_row {g f : mutation_fragment} {out : List mutation_fragment}
    (hf : f.is_row = true) : f ∈ merge_push g out ↔ f = g ∨ f ∈ out := by
  unfold merge_push
  split
  · split
    · constructor
      · intro h; exact Or.inr (List.mem_cons_of_mem _ h)
      · rintro (h | h)
        · subst h; simp [mutation_fragment.is_row] at hf
        · rcases List.mem_cons.1 h with h | h
          · subst h; simp [mutation_fragment.is_row] at hf
          · exact h
    · simp
  · simp

theorem mem_merge_runs_row {f : mutation_fragment} (hf : f.is_row = true)
    (L : List mutation_fragment) : f ∈ merge_runs L ↔ f ∈ L := by
  induction L with
  | nil => simp [merge_runs]
  | cons g L ih => rw [merge_runs_cons, mem_merge_push_row hf, ih]; simp

/-- A row is among the retained fragments of a partition exactly when it is
among its compacted rows. -/
theorem mem_compact_body_row {f : mutation_fragment} (hf : f.is_row = true)
    (ptomb : Option deletion_timestamp) (thr : Int) (body : List mutation_fragment) :
    f ∈ compact_body ptomb thr body ↔ f ∈ compact_rows ptomb thr none (coalesce body) := by
  unfold compact_body
  rw [mem_merge_runs_row hf, mem_purge_ranges_row hf]

/-- A row is in the output of a partition exactly when it is among its
compacted rows. -/
theorem mem_compact_partition_row {f : mutation_fragment} (hf : f.is_row = true)
    (ct : Nat) (thr : Int) (P : partition) :
    f ∈ compact_partition ct thr P ↔ f ∈ compact_rows P.tomb thr none (coalesce P.body) := by
  rw [← mem_compact_body_row hf]
  unfold compact_partition
  simp only
  split
  · rename_i h
    simp only [Bool.and_eq_true, List.isEmpty_iff] at h
    simp [h.1]
  · constructor
    · intro h
      rcases List.mem_cons.1 h with h | h
      · subst h; simp [mutation_fragment.is_row] at hf
      · rcases List.mem_append.1 h with h | h
        · exact h
        · simp at h; subst h; simp [mutation_fragment.is_row] at hf
    · intro h
      exact List.mem_cons_of_mem _ (List.mem_append_left _ h)

theorem compact_rows_append (ptomb : Option deletion_timestamp) (thr : Int)
    (A B : List mutation_fragment) (o : Option deletion_timestamp) :
    compact_rows ptomb thr o (A ++ B) =
      compact_rows ptomb thr o A ++ compact_rows ptomb thr (open_after_all o A) B := by
  induction A generalizing o with
  | nil => rfl
  | cons a A ih =>
    show (compact_row ptomb thr o a).toList ++ compact_rows ptomb thr (open_after o a) (A ++ B)
      = ((compact_row ptomb thr o a).toList ++ compact_rows ptomb thr (open_after o a) A)
        ++ compact_rows ptomb thr (open_after_all (open_after o a) A) B
    rw [ih, List.append_assoc]

/-- Membership in the compacted rows: the fragment is the result of
compacting some fragment of the sequence under the range tombstone open at
that point. -/
theorem mem_compact_rows {ptomb : Option deletion_timestamp} {thr : Int}
    {g : mutation_fragment} (L : List mutation_fragment) (o : Option deletion_timestamp) :
    g ∈ compact_rows ptomb thr o L ↔
      ∃ pre f post, L = pre ++ f :: post ∧
        compact_row ptomb thr (open_after_all o pre) f = some g := by
  induction L generalizing o with
  | nil => simp [compact_rows]
  | cons a L ih =>
    simp only [compact_rows, List.mem_append, Option.mem_toList, Option.mem_def, ih]
    constructor
    · rintro (h | ⟨pre, f, post, hL, hf⟩)
      · exact ⟨[], a, L, rfl, h⟩
      · exact ⟨a :: pre, f, post, by rw [hL]; rfl, hf⟩
    · rintro ⟨pre, f, post, hL, hf⟩
      cases pre with
      | nil =>
        simp only [List.nil_append, List.cons.injEq] at hL
        obtain ⟨rfl, rfl⟩ := hL
        exact Or.inl hf
      | cons b pre =>
        simp only [List.cons_append, List.cons.injEq] at hL
        obtain ⟨rfl, rfl⟩ := hL
        exact Or.inr ⟨pre, f, post, rfl, hf⟩

/-! ### Clustering order and coalescing -/

theorem nondecreasing_pairwise : ∀ l : List Nat, nondecreasing l = true → l.Pairwise (· ≤ ·)
  | [], _ => List.Pairwise.nil
  | [a], _ => List.pairwise_singleton _ _
  | a :: b :: rest, h => by
    simp only [nondecreasing, Bool.and_eq_true, decide_eq_true_eq] at h
    have ih := nondecreasing_pairwise (b :: rest) h.2
    refine List.Pairwise.cons ?_ ih
    intro c hc
    rcases List.mem_cons.1 hc with hc | hc
    · subst hc; exact h.1
    · exact le_trans h.1 (List.rel_of_pairwise_cons ih hc)

/-- The key of a row tells that a fragment with the same key is a row
targeting the same position. -/
theorem same_position_of_key {f h : mutation_fragment} (hf : f.is_row = true)
    (hk : order_key h = order_key f) : h.is_row = true ∧ same_position f h = true := by
  cases f <;> cases h <;>
    simp_all [mutation_fragment.is_row, order_key, same_position]
  all_goals omega

theorem key_of_same_position {f h : mutation_fragment} (hp : same_position f h = true) :
    f.is_row = true ∧ h.is_row = true ∧ order_key f = order_key h := by
  cases f <;> cases h <;>
    simp_all [mutation_fragment.is_row, order_key, same_position]

theorem merge_rows_key {f h : mutation_fragment} (hp : same_position f h = true) :
    order_key (merge_rows f h) = order_key h ∧ (merge_rows f h).is_row = true := by
  cases f <;> cases h <;>
    simp_all [mutation_fragment.is_row, order_key, same_position, merge_rows]

/-- Coalescing keeps the keys that occur. -/
theorem coalesce_key_mem (L : List mutation_fragment) :
    ∀ y ∈ coalesce L, ∃ x ∈ L, order_key x = order_key y := by
  induction L with
  | nil => simp [coalesce]
  | cons a L ih =>
    intro y hy
    rw [coalesce_cons] at hy
    unfold coalesce_push at hy
    split at hy
    · simp only [List.mem_singleton] at hy
      exact ⟨a, List.mem_cons_self _ _, by rw [hy]⟩
    · rename_i h rest heq
      split at hy
      · rename_i hp
        rcases List.mem_cons.1 hy with hy | hy
        · refine ⟨a, List.mem_cons_self _ _, ?_⟩
          rw [hy, (merge_rows_key hp).1, (key_of_same_position hp).2.2]
        · obtain ⟨x, hx, hxy⟩ := ih y (by rw [heq]; exact List.mem_cons_of_mem _ hy)
          exact ⟨x, List.mem_cons_of_mem _ hx, hxy⟩
      · rcases List.mem_cons.1 hy with hy | hy
        · exact ⟨a, List.mem_cons_self _ _, by rw [hy]⟩
        · obtain ⟨x, hx, hxy⟩ := ih y (by rw [heq]; exact hy)
          exact ⟨x, List.mem_cons_of_mem _ hx, hxy⟩

/-- In a coalesced body of a valid partition the fragments are in clustering
order and no two rows target the same position. -/
theorem coalesce_strictly_ordered (L : List mutation_fragment)
    (hs : (L.map order_key).Pairwise (· ≤ ·)) : (coalesce L).Pairwise strictly_ordered := by
  induction L with
  | nil => simp [coalesce]
  | cons a L ih =>
    rw [List.map_cons, List.pairwise_cons] at hs
    have ih := ih hs.2
    have hle : ∀ y ∈ coalesce L, order_key a ≤ order_key y := by
      intro y hy
      obtain ⟨x, hx, hxy⟩ := coalesce_key_mem L y hy
      rw [← hxy]
      exact hs.1 _ (List.mem_map_of_mem _ hx)
    rw [coalesce_cons]
    unfold coalesce_push
    split
    · exact List.pairwise_singleton _ _
    · rename_i h rest heq
      rw [heq] at ih hle
      rw [List.pairwise_cons] at ih
      split
      · rename_i hp
        refine List.Pairwise.cons ?_ ih.2
        intro y hy
        have := ih.1 y hy
        unfold strictly_ordered at this ⊢
        rw [(merge_rows_key hp).1]
        exact ⟨this.1, fun _ hy2 => this.2 (key_of_same_position hp).2.1 hy2⟩
      · rename_i hp
        refine List.Pairwise.cons ?_ (List.Pairwise.cons ih.1 ih.2)
        intro y hy
        refine ⟨hle y hy, ?_⟩
        intro ha hyr hk
        have hh : order_key h = order_key a := by
          have h1 := hle h (List.mem_cons_self _ _)
          have h2 : order_key h ≤ order_key y := by
            rcases List.mem_cons.1 hy with hy | hy
            · rw [hy]
            · exact (ih.1 y hy).1
          omega
        exact hp (same_position_of_key ha hh).2

/-- In a sequence in strict clustering order a row is found at one place
only. -/
theorem strictly_ordered_unique {L pre post pre2 post2 : List mutation_fragment}
    {f f2 : mutation_fragment} (hL : L.Pairwise strictly_ordered)
    (h1 : L = pre ++ f :: post) (h2 : L = pre2 ++ f2 :: post2)
    (hf : f.is_row = true) (hf2 : f2.is_row = true) (hk : order_key f = order_key f2) :
    pre = pre2 ∧ f = f2 ∧ post = post2 := by
  have hne : ∀ {A B C : List mutation_fragment} {x y : mutation_fragment},
      L = A ++ x :: (B ++ y :: C) → x.is_row = true → y.is_row = true →
      order_key x = order_key y → False := by
    intro A B C x y hA hx hy hxy
    rw [hA] at hL
    have := (List.pairwise_append.1 hL).2.1
    rw [List.pairwise_cons] at this
    exact (this.1 y (by simp)).2 hx hy hxy
  have heq : pre ++ f :: post = pre2 ++ f2 :: post2 := h1.symm.trans h2
  rcases List.append_eq_append_iff.1 heq with ⟨a, ha, hb⟩ | ⟨c, hc, hd⟩
  · cases a with
    | nil =>
      simp only [List.nil_append, List.cons.injEq] at hb
      simp only [List.append_nil] at ha
      exact ⟨ha.symm, hb.1, hb.2⟩
    | cons x a =>
      simp only [List.cons_append, List.cons.injEq] at hb
      exfalso
      refine hne (A := pre) (B := a) (C := post2) (x := f) (y := f2) ?_ hf hf2 hk
      rw [h1, hb.2]
  · cases c with
    | nil =>
      simp only [List.nil_append, List.cons.injEq] at hd
      simp only [List.append_nil] at hc
      exact ⟨hc, hd.1.symm, hd.2.symm⟩
    | cons x c =>
      simp only [List.cons_append, List.cons.injEq] at hd
      exfalso
      refine hne (A := pre2) (B := c) (C := post) (x := f2) (y := f) ?_ hf2 hf hk.symm
      rw [h2, hd.2]

/-! ### Rows through the compactor -/

/-- What the compactor does with a row: it is emitted, with the cells it
retains, exactly when the emission rule holds. -/
theorem compact_row_some {ptomb o : Option deletion_timestamp} {thr : Int}
    {f g : mutation_fragment} (hf : f.is_row = true)
    (h : compact_row ptomb thr o f = some g) :
    row_emitted thr (covering_deletion ptomb o f.row_tomb) f.row_tomb f.cells = true
      ∧ same_position f g = true
      ∧ g.cells = retained_cells thr (covering_deletion ptomb o f.row_tomb) f.cells := by
  cases f with
  | static_row cells =>
    simp only [compact_row] at h
    split at h
    · rename_i he
      simp only [Option.some.injEq] at h
      subst h
      exact ⟨he, rfl, rfl⟩
    · simp at h
  | clustered_row pos tomb cells =>
    simp only [compact_row] at h
    split at h
    · rename_i he
      simp only [Option.some.injEq] at h
      subst h
      exact ⟨he, by simp [same_position], rfl⟩
    · simp at h
  | partition_start k t => simp [mutation_fragment.is_row] at hf
  | range_tombstone_change p k d => simp [mutation_fragment.is_row] at hf
  | partition_end => simp [mutation_fragment.is_row] at hf

theorem compact_row_of_emitted {ptomb o : Option deletion_timestamp} {thr : Int}
    {f : mutation_fragment} (hf : f.is_row = true)
    (h : row_emitted thr (covering_deletion ptomb o f.row_tomb) f.row_tomb f.cells = true) :
    ∃ g, compact_row ptomb thr o f = some g := by
  cases f with
  | static_row cells =>
    simp only [mutation_fragment.row_tomb, mutation_fragment.cells] at h
    exact ⟨_, by simp only [compact_row, h, if_true]; rfl⟩
  | clustered_row pos tomb cells =>
    simp only [mutation_fragment.row_tomb, mutation_fragment.cells] at h
    exact ⟨_, by simp only [compact_row, h, if_true]; rfl⟩
  | partition_start k t => simp [mutation_fragment.is_row] at hf
  | range_tombstone_change p k d => simp [mutation_fragment.is_row] at hf
  | partition_end => simp [mutation_fragment.is_row] at hf

theorem compact_row_not_row {ptomb o : Option deletion_timestamp} {thr : Int}
    {f : mutation_fragment} (hf : f.is_row = false) :
    compact_row ptomb thr o f = some f := by
  cases f <;> simp_all [mutation_fragment.is_row, compact_row]

/-! ### The reader on a valid stream -/

theorem valid_stream_partitions {s : List mutation_fragment} {parts : List partition}
    (hparse : parse_partitions s = some parts) (hv : valid_stream s = true) :
    valid_partitions parts = true := by
  unfold valid_stream at hv
  rw [hparse] at hv
  exact hv

theorem valid_partitions_body {parts : List partition} {P : partition}
    (hv : valid_partitions parts = true) (hP : P ∈ parts) : valid_body P.body = true := by
  unfold valid_partitions at hv
  simp only [Bool.and_eq_true, List.all_eq_true] at hv
  exact hv.2 P hP

theorem valid_body_sorted {body : List mutation_fragment} (hv : valid_body body = true) :
    (body.map order_key).Pairwise (· ≤ ·) := by
  unfold valid_body at hv
  simp only [Bool.and_eq_true] at hv
  exact nondecreasing_pairwise _ hv.1

end compaction

open compaction in
/-- On a valid stream the reader produces, partition after partition, what
the compactor emits for it. -/
theorem reader_production {source reader : mutation_stream_source} {ct : Nat}
    {oracle : Nat → Int} {fwd : streamed_mutation.forwarding} {s : List mutation_fragment}
    {parts : List partition}
    (hmk : make_compacting_reader source ct oracle fwd = .ok reader)
    (hs : source.production = .ok s) (hparse : parse_partitions s = some parts)
    (hv : valid_stream s = true) :
    reader.production
      = .ok ((parts.map (fun p => compact_partition ct (oracle p.key) p)).flatten) := by
  unfold make_compacting_reader at hmk
  split at hmk
  · simp at hmk
  · simp only [Except.ok.injEq] at hmk
    subst hmk
    simp only [hs, compact_stream, hparse, valid_stream_partitions hparse hv, if_true]

open compaction in
/-- What the purge rule of section 4.2 does with a cell.  On a valid stream,
a cell of a row (after coalescing) with write timestamp `C`, maximum covering
deletion timestamp `T` at its position and purge threshold `P` of its
partition is in a row the reader emits for that position iff `C > T`, or
`C > P` and the row itself is emitted. -/
theorem cell_in_output_iff (source reader : mutation_stream_source) (ct : Nat)
    (oracle : Nat → Int) (fwd : streamed_mutation.forwarding) (s : List mutation_fragment)
    (parts : List partition) (P : partition) (pre post : List mutation_fragment)
    (f : mutation_fragment) (c : cell)
    (hmk : make_compacting_reader source ct oracle fwd = .ok reader)
    (hs : source.production = .ok s) (hv : valid_stream s = true)
    (hparse : parse_partitions s = some parts) (hP : P ∈ parts)
    (hbody : coalesce P.body = pre ++ f :: post) (hrow : f.is_row = true)
    (hc : c ∈ f.cells) :
    reader.production
        = .ok ((parts.map (fun p => compact_partition ct (oracle p.key) p)).flatten)
      ∧ ((∃ g ∈ compact_partition ct (oracle P.key) P,
            same_position f g = true ∧ c ∈ g.cells)
          ↔ (c.live (covering_deletion P.tomb (open_after_all none pre) f.row_tomb) = true
              ∨ (c.timestamp > oracle P.key
                  ∧ row_emitted (oracle P.key)
                      (covering_deletion P.tomb (open_after_all none pre) f.row_tomb)
                      f.row_tomb f.cells = true))) := by
  refine ⟨reader_production hmk hs hparse hv, ?_⟩
  have hord : (coalesce P.body).Pairwise strictly_ordered :=
    coalesce_strictly_ordered _
      (valid_body_sorted (valid_partitions_body (valid_stream_partitions hparse hv) hP))
  constructor
  · rintro ⟨g, hg, hpos, hcg⟩
    have hgrow := (key_of_same_position hpos).2.1
    rw [mem_compact_partition_row hgrow, mem_compact_rows] at hg
    obtain ⟨pre2, f2, post2, hL, hcr⟩ := hg
    have hf2 : f2.is_row = true := by
      by_contra hn
      rw [Bool.not_eq_true] at hn
      rw [compact_row_not_row hn, Option.some.injEq] at hcr
      rw [hcr, hgrow] at hn
      exact Bool.noConfusion hn
    obtain ⟨hem, hpos2, hcells⟩ := compact_row_some hf2 hcr
    have hk : order_key f = order_key f2 := by
      rw [(key_of_same_position hpos).2.2, (key_of_same_position hpos2).2.2]
    obtain ⟨hpre, hff, _⟩ := strictly_ordered_unique hord hbody hL hrow hf2 hk
    subst hpre
    subst hff
    rw [hcells] at hcg
    unfold retained_cells at hcg
    rw [List.mem_filter] at hcg
    have hnd := hcg.2
    unfold cell.dropped at hnd
    simp only [Bool.not_and, Bool.not_not, Bool.or_eq_true, Bool.not_eq_true',
      decide_eq_false_iff_not, not_le] at hnd
    rcases hnd with hnd | hnd
    · exact Or.inr ⟨hnd, hem⟩
    · exact Or.inl hnd
  · intro h
    have hret : c ∈ retained_cells (oracle P.key)
        (covering_deletion P.tomb (open_after_all none pre) f.row_tomb) f.cells := by
      unfold retained_cells
      rw [List.mem_filter]
      refine ⟨hc, ?_⟩
      unfold cell.dropped
      simp only [Bool.not_and, Bool.not_not, Bool.or_eq_true, Bool.not_eq_true',
        decide_eq_false_iff_not, not_le]
      rcases h with h | h
      · exact Or.inr h
      · exact Or.inl h.1
    have hem : row_emitted (oracle P.key)
        (covering_deletion P.tomb (open_after_all none pre) f.row_tomb)
        f.row_tomb f.cells = true := by
      rcases h with h | h
      · unfold row_emitted
        rw [Bool.or_eq_true]
        exact Or.inl (List.any_eq_true.2 ⟨c, hret, h⟩)
      · exact h.2
    obtain ⟨g, hg⟩ := @compact_row_of_emitted P.tomb (open_after_all none pre) (oracle P.key) f
      hrow hem
    obtain ⟨_, hpos, hcells⟩ := compact_row_some hrow hg
    refine ⟨g, ?_, hpos, by rw [hcells]; exact hret⟩
    rw [mem_compact_partition_row (key_of_same_position hpos).2.1, mem_compact_rows]
    exact ⟨pre, f, post, hbody, hg⟩

namespace compaction
open mutation_fragment bound_kind

/-! ### Counting the rows at one position -/

theorem filter_purge_push {p : mutation_fragment → Bool}
    (hp : ∀ f, p f = true → f.is_row = true) (thr : Int) (g : mutation_fragment)
    (out : List mutation_fragment) :
    (purge_push thr g out).filter p = (g :: out).filter p := by
  have hrc : ∀ pos k d, p (range_tombstone_change pos k d) = false := by
    intro pos k d
    cases h : p (range_tombstone_change pos k d)
    · rfl
    · have := hp _ h
      simp [mutation_fragment.is_row] at this
  unfold purge_push
  split
  · split
    · simp [List.filter_cons, hrc]
    · rfl
  · rfl

theorem filter_purge_ranges {p : mutation_fragment → Bool}
    (hp : ∀ f, p f = true → f.is_row = true) (thr : Int) (L : List mutation_fragment) :
    (purge_ranges thr L).filter p = L.filter p := by
  induction L with
  | nil => rfl
  | cons g L ih =>
    rw [purge_ranges_cons, filter_purge_push hp, List.filter_cons, List.filter_cons, ih]

theorem filter_merge_push {p : mutation_fragment → Bool}
    (hp : ∀ f, p f = true → f.is_row = true) (g : mutation_fragment)
    (out : List mutation_fragment) :
    (merge_push g out).filter p = (g :: out).filter p := by
  have hrc : ∀ pos k d, p (range_tombstone_change pos k d) = false := by
    intro pos k d
    cases h : p (range_tombstone_change pos k d)
    · rfl
    · have := hp _ h
      simp [mutation_fragment.is_row] at this
  unfold merge_push
  split
  · split
    · simp [List.filter_cons, hrc]
    · rfl
  · rfl

theorem filter_merge_runs {p : mutation_fragment → Bool}
    (hp : ∀ f, p f = true → f.is_row = true) (L : List mutation_fragment) :
    (merge_runs L).filter p = L.filter p := by
  induction L with
  | nil => rfl
  | cons g L ih =>
    rw [merge_runs_cons, filter_merge_push hp, List.filter_cons, List.filter_cons, ih]

/-- The rows selected from the output of a partition are the rows selected
from its compacted rows, in the same order and number. -/
theorem filter_compact_partition {p : mutation_fragment → Bool}
    (hp : ∀ f, p f = true → f.is_row = true) (ct : Nat) (thr : Int) (P : partition) :
    (compact_partition ct thr P).filter p
      = (compact_rows P.tomb thr none (coalesce P.body)).filter p := by
  have hb : (compact_body P.tomb thr P.body).filter p
      = (compact_rows P.tomb thr none (coalesce P.body)).filter p := by
    unfold compact_body
    rw [filter_merge_runs hp, filter_purge_ranges hp]
  have h1 : ∀ k t, p (partition_start k t) = false := by
    intro k t
    cases h : p (partition_start k t)
    · rfl
    · have := hp _ h
      simp [mutation_fragment.is_row] at this
  have h2 : p partition_end = false := by
    cases h : p partition_end
    · rfl
    · have := hp _ h
      simp [mutation_fragment.is_row] at this
  rw [← hb]
  unfold compact_partition
  simp only
  split
  · rename_i h
    simp only [Bool.and_eq_true, List.isEmpty_iff] at h
    rw [h.1]
  · simp [List.filter_cons, h1, h2]

/-! ### Coalescing around a pair of duplicates -/

theorem coalesce_eq_nil {L : List mutation_fragment} (h : coalesce L = []) : L = [] := by
  cases L with
  | nil => rfl
  | cons a L =>
    rw [coalesce_cons] at h
    unfold coalesce_push at h
    split at h
    · simp at h
    · split at h <;> simp at h

theorem coalesce_push_append (a h : mutation_fragment) (t B : List mutation_fragment) :
    coalesce_push a (h :: t ++ B) = coalesce_push a (h :: t) ++ B := by
  unfold coalesce_push
  simp only [List.cons_append]
  split <;> rfl

/-- Coalescing a sequence in front of a fragment that none of its fragments
shares a position with. -/
theorem foldr_coalesce_push_of_not_same (A : List mutation_fragment) (y : mutation_fragment)
    (ys : List mutation_fragment) (h : ∀ a ∈ A, same_position a y = false) :
    A.foldr coalesce_push (y :: ys) = coalesce A ++ y :: ys := by
  induction A with
  | nil => rfl
  | cons a A ih =>
    have ih := ih (fun x hx => h x (List.mem_cons_of_mem _ hx))
    rw [List.foldr_cons, ih, coalesce_cons]
    cases hc : coalesce A with
    | nil =>
      have hA := coalesce_eq_nil hc
      simp only [List.nil_append]
      unfold coalesce_push
      simp [h a (List.mem_cons_self _ _)]
    | cons x t => exact coalesce_push_append a x t (y :: ys)

theorem same_position_symm (a b : mutation_fragment) :
    same_position a b = same_position b a := by
  cases a <;> cases b <;> simp [same_position, eq_comm]

/-- Coalescing brings no row to a position that no fragment targeted. -/
theorem coalesce_not_same {r : mutation_fragment} {L : List mutation_fragment}
    (h : ∀ x ∈ L, same_position r x = false) : ∀ y ∈ coalesce L, same_position r y = false := by
  intro y hy
  obtain ⟨x, hx, hxy⟩ := coalesce_key_mem L y hy
  cases hs : same_position r y
  · rfl
  · exfalso
    have hk := key_of_same_position hs
    have := (same_position_of_key hk.1 (hxy.trans hk.2.2.symm)).2
    rw [h x hx] at this
    exact Bool.noConfusion this

theorem filter_range_change_coalesce (L : List mutation_fragment) :
    (coalesce L).filter mutation_fragment.is_range_change
      = L.filter mutation_fragment.is_range_change := by
  induction L with
  | nil => rfl
  | cons a L ih =>
    rw [coalesce_cons, List.filter_cons, ← ih]
    cases hc : coalesce L with
    | nil => simp [coalesce_push, List.filter_cons]
    | cons h rest =>
      by_cases hp : same_position a h = true
      · have hk := key_of_same_position hp
        have hm := (merge_rows_key hp).2
        have h1 : ∀ f : mutation_fragment, f.is_row = true → f.is_range_change = false := by
          intro f hf; cases f <;> simp_all [mutation_fragment.is_row,
            mutation_fragment.is_range_change]
        simp [coalesce_push, hp, List.filter_cons, h1 _ hk.1, h1 _ hk.2.1, h1 _ hm]
      · simp [coalesce_push, hp, List.filter_cons]

theorem open_after_all_filter (L : List mutation_fragment) (o : Option deletion_timestamp) :
    open_after_all o (L.filter mutation_fragment.is_range_change) = open_after_all o L := by
  induction L generalizing o with
  | nil => rfl
  | cons a L ih =>
    rw [List.filter_cons]
    cases a with
    | range_tombstone_change p k d =>
      simp only [mutation_fragment.is_range_change, if_true]
      exact ih _
    | partition_start k t => exact ih _
    | static_row c => exact ih _
    | clustered_row p t c => exact ih _
    | partition_end => exact ih _

/-- Coalescing does not change which range tombstone is open. -/
theorem open_after_all_coalesce (L : List mutation_fragment) (o : Option deletion_timestamp) :
    open_after_all o (coalesce L) = open_after_all o L := by
  rw [← open_after_all_filter (coalesce L), filter_range_change_coalesce,
    open_after_all_filter]

/-- The coalesced body around two duplicates and no third. -/
theorem coalesce_pair {pre post : List mutation_fragment} {K : Nat}
    {t1 t2 : Option deletion_timestamp} {c1 c2 : List cell}
    (hpre : ∀ x ∈ pre, same_position (clustered_row K t1 c1) x = false)
    (hpost : ∀ x ∈ post, same_position (clustered_row K t1 c1) x = false) :
    coalesce (pre ++ clustered_row K t1 c1 :: clustered_row K t2 c2 :: post)
      = coalesce pre
        ++ clustered_row K (merge_tomb t1 t2) (merge_cells c1 c2) :: coalesce post := by
  have h2 : coalesce (clustered_row K t2 c2 :: post) = clustered_row K t2 c2 :: coalesce post := by
    rw [coalesce_cons]
    unfold coalesce_push
    split
    · rename_i h; rw [h]
    · rename_i h rest heq
      have := coalesce_not_same hpost h (by rw [heq]; exact List.mem_cons_self _ _)
      have h3 : same_position (clustered_row K t2 c2) h = false := by
        cases h <;> simp_all [same_position]
      rw [h3, heq]
      rfl
  have h1 : coalesce (clustered_row K t1 c1 :: clustered_row K t2 c2 :: post)
      = clustered_row K (merge_tomb t1 t2) (merge_cells c1 c2) :: coalesce post := by
    rw [coalesce_cons, h2]
    simp [coalesce_push, same_position, merge_rows]
  unfold coalesce at h1 ⊢
  rw [List.foldr_append, h1]
  apply foldr_coalesce_push_of_not_same
  intro a ha
  have := hpre a ha
  rw [same_position_symm]
  cases a <;> simp_all [same_position]

end compaction

namespace compaction
open mutation_fragment bound_kind

/-! ### The cells of coalesced rows -/

theorem find_insert_cell (col : Nat) (x : cell) (L : List cell) :
    (insert_cell L x).find? (fun c => decide (c.column = col))
      = if x.column = col then
          some (match L.find? (fun c => decide (c.column = col)) with
                | none => x
                | some a => if x.timestamp > a.timestamp then x else a)
        else L.find? (fun c => decide (c.column = col)) := by
  induction L with
  | nil =>
    by_cases h : x.column = col <;> simp [insert_cell, List.find?, h]
  | cons a L ih =>
    by_cases hax : a.column = x.column
    · by_cases hx : x.column = col
      · have ha : a.column = col := hax.trans hx
        by_cases ht : x.timestamp > a.timestamp <;>
          simp [insert_cell, List.find?, hax, hx, ha, ht]
      · have ha : ¬ a.column = col := fun h => hx (hax ▸ h)
        by_cases ht : x.timestamp > a.timestamp <;>
          simp [insert_cell, List.find?, hax, hx, ha, ht]
    · by_cases ha : a.column = col
      · subst ha
        have hx : ¬ x.column = a.column := fun h => hax h.symm
        simp [insert_cell, List.find?, hax, hx]
      · simp only [insert_cell, hax, if_false, List.find?, ha, decide_False, ih]

theorem find_of_mem_nodup {L : List cell} (hn : (L.map (fun c => c.column)).Nodup)
    {c : cell} (hc : c ∈ L) :
    L.find? (fun x => decide (x.column = c.column)) = some c := by
  induction L with
  | nil => simp at hc
  | cons a L ih =>
    rw [List.map_cons, List.nodup_cons] at hn
    rcases List.mem_cons.1 hc with h | h
    · subst h; simp [List.find?]
    · have hne : ¬ a.column = c.column := by
        intro heq
        exact hn.1 (heq ▸ List.mem_map_of_mem (fun c => c.column) h)
      simp only [List.find?, hne, decide_False]
      exact ih hn.2 h

theorem insert_cell_columns (x : cell) (L : List cell) :
    (insert_cell L x).map (fun c => c.column)
      = if x.column ∈ L.map (fun c => c.column) then L.map (fun c => c.column)
        else L.map (fun c => c.column) ++ [x.column] := by
  induction L with
  | nil => simp [insert_cell]
  | cons a L ih =>
    by_cases hax : a.column = x.column
    · by_cases ht : x.timestamp > a.timestamp <;> simp [insert_cell, hax, ht]
    · have hxa : ¬ x.column = a.column := fun h => hax h.symm
      simp only [insert_cell, hax, if_false, List.map_cons, ih, List.mem_cons, hxa, false_or]
      split <;> simp

theorem insert_cell_nodup {x : cell} {L : List cell}
    (hn : (L.map (fun c => c.column)).Nodup) :
    ((insert_cell L x).map (fun c => c.column)).Nodup := by
  rw [insert_cell_columns]
  split
  · exact hn
  · rename_i h
    rw [List.nodup_append]
    refine ⟨hn, List.nodup_singleton _, ?_⟩
    intro a ha hb
    rw [List.mem_singleton] at hb
    exact h (hb ▸ ha)

theorem merge_cells_nodup (c2 : List cell) :
    ∀ c1 : List cell, (c1.map (fun c => c.column)).Nodup →
      ((merge_cells c1 c2).map (fun c => c.column)).Nodup := by
  induction c2 with
  | nil => intro c1 h; exact h
  | cons x c2 ih =>
    intro c1 h
    exact ih (insert_cell c1 x) (insert_cell_nodup h)

theorem find_merge_cells_of_not_mem (col : Nat) (c2 : List cell)
    (h : col ∉ c2.map (fun c => c.column)) :
    ∀ c1 : List cell, (merge_cells c1 c2).find? (fun c => decide (c.column = col))
      = c1.find? (fun c => decide (c.column = col)) := by
  induction c2 with
  | nil => intro c1; rfl
  | cons x c2 ih =>
    intro c1
    rw [List.map_cons, List.mem_cons, not_or] at h
    show (merge_cells (insert_cell c1 x) c2).find? _ = _
    rw [ih h.2, find_insert_cell]
    have : ¬ x.column = col := fun e => h.1 e.symm
    simp [this]

/-- The cell of a column in the coalesced row, when the second fragment has
a cell of that column. -/
theorem find_merge_cells (c2 : List cell) (hn : (c2.map (fun c => c.column)).Nodup)
    {b : cell} (hb : b ∈ c2) :
    ∀ c1 : List cell, (merge_cells c1 c2).find? (fun c => decide (c.column = b.column))
      = some (match c1.find? (fun c => decide (c.column = b.column)) with
              | none => b
              | some a => if b.timestamp > a.timestamp then b else a) := by
  induction c2 with
  | nil => simp at hb
  | cons x c2 ih =>
    intro c1
    rw [List.map_cons, List.nodup_cons] at hn
    show (merge_cells (insert_cell c1 x) c2).find? _ = _
    rcases List.mem_cons.1 hb with h | h
    · subst h
      rw [find_merge_cells_of_not_mem _ _ hn.1, find_insert_cell]
      simp
    · have hne : ¬ x.column = b.column := by
        intro heq
        exact hn.1 (heq ▸ List.mem_map_of_mem (fun c => c.column) h)
      rw [ih hn.2 h, find_insert_cell]
      simp [hne]

/-- Coalescing keeps, per cell, the higher timestamp: a cell of the
coalesced row whose column both fragments hold carries the higher of the two
write timestamps. -/
theorem merge_cells_timestamp {c1 c2 : List cell}
    (hn1 : (c1.map (fun c => c.column)).Nodup) (hn2 : (c2.map (fun c => c.column)).Nodup)
    {a b c : cell} (ha : a ∈ c1) (hb : b ∈ c2) (hab : a.column = b.column)
    (hc : c ∈ merge_cells c1 c2) (hca : c.column = a.column) :
    c.timestamp = max a.timestamp b.timestamp := by
  have h1 := find_of_mem_nodup (merge_cells_nodup c2 c1 hn1) hc
  have h2 := find_merge_cells c2 hn2 hb c1
  have h3 := find_of_mem_nodup hn1 ha
  rw [hca, hab] at h1
  rw [hab] at h3
  rw [h2, h3, Option.some.injEq] at h1
  rw [← h1]
  by_cases ht : b.timestamp > a.timestamp
  · simp only [ht, if_true]
    exact (max_eq_right (le_of_lt ht)).symm
  · simp only [ht, if_false]
    exact (max_eq_left (not_lt.1 ht)).symm

end compaction

namespace compaction
open mutation_fragment bound_kind

theorem same_position_congr {r f g : mutation_fragment} (h : same_position f g = true) :
    same_position r g = same_position r f := by
  cases r <;> cases f <;> cases g <;> simp_all [same_position]

/-- The compactor brings no row to a position that no fragment targeted. -/
theorem compact_rows_not_same {r : mutation_fragment} {ptomb : Option deletion_timestamp}
    {thr : Int} {L : List mutation_fragment} (h : ∀ x ∈ L, same_position r x = false)
    (o : Option deletion_timestamp) :
    ∀ g ∈ compact_rows ptomb thr o L, same_position r g = false := by
  intro g hg
  rw [mem_compact_rows] at hg
  obtain ⟨pre, f, post, hL, hcr⟩ := hg
  have hf : f ∈ L := by rw [hL]; simp
  cases hrow : f.is_row
  · rw [compact_row_not_row hrow, Option.some.injEq] at hcr
    rw [← hcr]; exact h f hf
  · rw [same_position_congr (compact_row_some hrow hcr).2.1]
    exact h f hf

theorem filter_eq_nil_of_all_false {p : mutation_fragment → Bool} {L : List mutation_fragment}
    (h : ∀ x ∈ L, p x = false) : L.filter p = [] := by
  rw [List.filter_eq_nil_iff]
  intro x hx
  rw [h x hx]
  exact Bool.false_ne_true

end compaction

open compaction in
/-- C3 (amended): on a valid stream in which two clustered rows, and no
third fragment, target the same clustering position `K` within one partition,
the reader emits at most one row at `K` for that partition: the coalesced row
with the cells it retains when that row is emitted, and nothing when it is
purged; a cell of the emitted row whose column is present in both inputs
carries the higher of the two write timestamps. -/
theorem duplicates_coalesce_into_one (source reader : mutation_stream_source) (ct : Nat)
    (oracle : Nat → Int) (fwd : streamed_mutation.forwarding) (s : List mutation_fragment)
    (parts : List partition) (P : partition) (pre post : List mutation_fragment)
    (K : Nat) (t1 t2 : Option deletion_timestamp) (c1 c2 : List cell)
    (hmk : make_compacting_reader source ct oracle fwd = .ok reader)
    (hs : source.production = .ok s) (hv : valid_stream s = true)
    (hparse : parse_partitions s = some parts) (hP : P ∈ parts)
    (hbody : P.body
      = pre ++ mutation_fragment.clustered_row K t1 c1
          :: mutation_fragment.clustered_row K t2 c2 :: post)
    (hpre : ∀ x ∈ pre, same_position (mutation_fragment.clustered_row K t1 c1) x = false)
    (hpost : ∀ x ∈ post, same_position (mutation_fragment.clustered_row K t1 c1) x = false)
    (hn1 : (c1.map (fun c => c.column)).Nodup) (hn2 : (c2.map (fun c => c.column)).Nodup) :
    reader.production
        = .ok ((parts.map (fun p => compact_partition ct (oracle p.key) p)).flatten)
      ∧ (compact_partition ct (oracle P.key) P).filter
            (same_position (mutation_fragment.clustered_row K t1 c1))
          = (compact_row P.tomb (oracle P.key) (open_after_all none pre)
              (mutation_fragment.clustered_row K (merge_tomb t1 t2)
                (merge_cells c1 c2))).toList
      ∧ ((compact_partition ct (oracle P.key) P).filter
            (same_position (mutation_fragment.clustered_row K t1 c1))).length
          = (if row_emitted (oracle P.key)
                (covering_deletion P.tomb (open_after_all none pre) (merge_tomb t1 t2))
                (merge_tomb t1 t2) (merge_cells c1 c2) = true then 1 else 0)
      ∧ ∀ g ∈ compact_partition ct (oracle P.key) P,
          same_position (mutation_fragment.clustered_row K t1 c1) g = true →
          ∀ a ∈ c1, ∀ b ∈ c2, a.column = b.column →
          ∀ c ∈ g.cells, c.column = a.column →
            c.timestamp = max a.timestamp b.timestamp := by
  have hfilter : (compact_partition ct (oracle P.key) P).filter
            (same_position (mutation_fragment.clustered_row K t1 c1))
          = (compact_row P.tomb (oracle P.key) (open_after_all none pre)
              (mutation_fragment.clustered_row K (merge_tomb t1 t2)
                (merge_cells c1 c2))).toList := by
    rw [filter_compact_partition (fun f hf => (key_of_same_position hf).2.1), hbody,
      coalesce_pair hpre hpost, compact_rows_append, open_after_all_coalesce,
      List.filter_append]
    show _ ++ List.filter _ (_ ++ _) = _
    rw [List.filter_append,
      filter_eq_nil_of_all_false (compact_rows_not_same (coalesce_not_same hpre) _),
      filter_eq_nil_of_all_false (compact_rows_not_same (coalesce_not_same hpost) _),
      List.nil_append, List.append_nil]
    simp only [compact_row]
    split <;> simp [same_position]
  refine ⟨reader_production hmk hs hparse hv, hfilter, ?_, ?_⟩
  · rw [hfilter]
    simp only [compact_row]
    split <;> simp
  · intro g hg hpos a ha b hb hab c hc hca
    have hmem : g ∈ (compact_partition ct (oracle P.key) P).filter
        (same_position (mutation_fragment.clustered_row K t1 c1)) :=
      List.mem_filter.2 ⟨hg, hpos⟩
    rw [hfilter, Option.mem_toList, Option.mem_def] at hmem
    have hcells := (compact_row_some (f := mutation_fragment.clustered_row K (merge_tomb t1 t2)
      (merge_cells c1 c2)) rfl hmem).2.2
    rw [hcells] at hc
    unfold retained_cells at hc
    exact merge_cells_timestamp hn1 hn2 ha hb hab (List.mem_filter.1 hc).1 hca

namespace compaction
open mutation_fragment bound_kind

/-! ### Partitions whose rows and range tombstones are all purged -/

/-- The body of a partition read from a stream holds rows and
range-tombstone changes only. -/
theorem parse_partitions_from_body :
    ∀ (s : List mutation_fragment)
      (cur : Option (Nat × Option deletion_timestamp × List mutation_fragment))
      (ps : List partition),
      parse_partitions_from cur s = some ps →
      (∀ k t b, cur = some (k, t, b) →
        ∀ f ∈ b, f.is_row = true ∨ f.is_range_change = true) →
      ∀ P ∈ ps, ∀ f ∈ P.body, f.is_row = true ∨ f.is_range_change = true := by
  intro s
  induction s with
  | nil =>
    intro cur ps h _ P hP
    cases cur with
    | none =>
      simp only [parse_partitions_from, Option.some.injEq] at h
      subst h
      simp at hP
    | some c => simp [parse_partitions_from] at h
  | cons x s ih =>
    intro cur ps h hcur P hP
    cases cur with
    | none =>
      cases x with
      | partition_start k t =>
        simp only [parse_partitions_from] at h
        exact ih _ ps h (by
          intro k2 t2 b heq f hf
          simp only [Option.some.injEq, Prod.mk.injEq] at heq
          rw [← heq.2.2] at hf
          simp at hf) P hP
      | static_row c => simp [parse_partitions_from] at h
      | clustered_row p t c => simp [parse_partitions_from] at h
      | range_tombstone_change p k d => simp [parse_partitions_from] at h
      | partition_end => simp [parse_partitions_from] at h
    | some c =>
      obtain ⟨k, t, b⟩ := c
      have hb := hcur k t b rfl
      have hstep : ∀ y : mutation_fragment, (y.is_row = true ∨ y.is_range_change = true) →
          parse_partitions_from (some (k, t, y :: b)) s = some ps →
          ∀ f ∈ P.body, f.is_row = true ∨ f.is_range_change = true := by
        intro y hy h2
        exact ih _ ps h2 (by
          intro k2 t2 b2 heq f hf
          simp only [Option.some.injEq, Prod.mk.injEq] at heq
          rw [← heq.2.2] at hf
          rcases List.mem_cons.1 hf with hf | hf
          · rw [hf]; exact hy
          · exact hb f hf) P hP
      cases x with
      | partition_start k2 t2 => simp [parse_partitions_from] at h
      | static_row c =>
        simp only [parse_partitions_from] at h
        exact hstep (static_row c) (Or.inl rfl) h
      | clustered_row p t2 c =>
        simp only [parse_partitions_from] at h
        exact hstep (clustered_row p t2 c) (Or.inl rfl) h
      | range_tombstone_change p k2 d =>
        simp only [parse_partitions_from] at h
        exact hstep (range_tombstone_change p k2 d) (Or.inr rfl) h
      | partition_end =>
        simp only [parse_partitions_from, Option.map_eq_some'] at h
        obtain ⟨ps2, h2, hps⟩ := h
        subst hps
        rcases List.mem_cons.1 hP with hP | hP
        · subst hP
          intro f hf
          exact hb f (List.mem_reverse.1 hf)
        · exact ih none ps2 h2 (by intro k2 t2 b2 heq; simp at heq) P hP

theorem parse_partitions_body {s : List mutation_fragment} {parts : List partition}
    (h : parse_partitions s = some parts) {P : partition} (hP : P ∈ parts) :
    ∀ f ∈ P.body, f.is_row = true ∨ f.is_range_change = true :=
  parse_partitions_from_body s none parts h (by intro k t b heq; simp at heq) P hP

end compaction

namespace compaction
open mutation_fragment bound_kind

theorem kind_of_key_pos {f : mutation_fragment} :
    (f.is_row = true ∨ f.is_range_change = true) ↔ 0 < order_key f := by
  cases f <;> simp [mutation_fragment.is_row, mutation_fragment.is_range_change, order_key]

theorem not_range_change_of_row {f : mutation_fragment} (h : f.is_row = true) :
    f.is_range_change = false := by
  cases f <;> simp_all [mutation_fragment.is_row, mutation_fragment.is_range_change]

theorem not_row_of_range_change {f : mutation_fragment} (h : f.is_range_change = true) :
    f.is_row = false := by
  cases f <;> simp_all [mutation_fragment.is_row, mutation_fragment.is_range_change]

theorem coalesce_body_kinds {L : List mutation_fragment}
    (h : ∀ f ∈ L, f.is_row = true ∨ f.is_range_change = true) :
    ∀ f ∈ coalesce L, f.is_row = true ∨ f.is_range_change = true := by
  intro y hy
  obtain ⟨x, hx, hxy⟩ := coalesce_key_mem L y hy
  rw [kind_of_key_pos, ← hxy, ← kind_of_key_pos]
  exact h x hx

theorem balanced_filter (L : List mutation_fragment) (o : Option deletion_timestamp) :
    balanced o (L.filter mutation_fragment.is_range_change) = balanced o L := by
  induction L generalizing o with
  | nil => rfl
  | cons a L ih =>
    rw [List.filter_cons]
    cases a with
    | range_tombstone_change p k d =>
      simp only [mutation_fragment.is_range_change, if_true]
      cases o <;> cases k <;> simp [balanced, ih]
    | partition_start k t => cases o <;> simp [mutation_fragment.is_range_change, balanced, ih]
    | static_row c => cases o <;> simp [mutation_fragment.is_range_change, balanced, ih]
    | clustered_row p t c => cases o <;> simp [mutation_fragment.is_range_change, balanced, ih]
    | partition_end => cases o <;> simp [mutation_fragment.is_range_change, balanced, ih]

/-- When every row is purged, only the range-tombstone changes are left. -/
theorem compact_rows_all_purged {ptomb : Option deletion_timestamp} {thr : Int}
    (L : List mutation_fragment) (o : Option deletion_timestamp)
    (hk : ∀ f ∈ L, f.is_row = true ∨ f.is_range_change = true)
    (hrows : ∀ pre f post, L = pre ++ f :: post → f.is_row = true →
      compact_row ptomb thr (open_after_all o pre) f = none) :
    compact_rows ptomb thr o L = L.filter mutation_fragment.is_range_change := by
  induction L generalizing o with
  | nil => rfl
  | cons a L ih =>
    have ih := ih (open_after o a) (fun f hf => hk f (List.mem_cons_of_mem _ hf))
      (fun pre f post hL hf => hrows (a :: pre) f post (by rw [hL]; rfl) hf)
    simp only [compact_rows, ih, List.filter_cons]
    rcases hk a (List.mem_cons_self _ _) with h | h
    · have := hrows [] a L rfl h
      simp only [open_after_all, List.foldl_nil] at this
      rw [this, not_range_change_of_row h]
      rfl
    · rw [compact_row_not_row (not_row_of_range_change h), h]
      rfl

/-- A balanced sequence of range-tombstone changes whose timestamps are all
at most the purge threshold is purged entirely. -/
theorem purge_ranges_all {thr : Int} (R : List mutation_fragment) :
    ∀ o : Option deletion_timestamp,
      (∀ f ∈ R, ∃ p k d, f = range_tombstone_change p k d ∧ d.timestamp ≤ thr) →
      balanced o R = true →
      (o = none → purge_ranges thr R = [])
        ∧ (o ≠ none → ∃ p d, purge_ranges thr R = [range_tombstone_change p range_end d]) := by
  induction R with
  | nil =>
    intro o _ hb
    cases o with
    | none => exact ⟨fun _ => rfl, fun h => absurd rfl h⟩
    | some d => simp [balanced] at hb
  | cons f R ih =>
    intro o hall hb
    obtain ⟨p, k, d, hf, hd⟩ := hall f (List.mem_cons_self _ _)
    subst hf
    have hall2 : ∀ f ∈ R, ∃ p k d, f = range_tombstone_change p k d ∧ d.timestamp ≤ thr :=
      fun f hf => hall f (List.mem_cons_of_mem _ hf)
    rw [purge_ranges_cons]
    cases o with
    | none =>
      cases k with
      | range_start =>
        simp only [balanced] at hb
        obtain ⟨p2, d2, h2⟩ := (ih (some d) hall2 hb).2 (by simp)
        refine ⟨fun _ => ?_, fun h => absurd rfl h⟩
        rw [h2]
        simp [purge_push, hd]
      | range_end => simp [balanced] at hb
    | some d0 =>
      cases k with
      | range_start => simp [balanced] at hb
      | range_end =>
        simp only [balanced, Bool.and_eq_true, decide_eq_true_eq] at hb
        have h2 := (ih none hall2 hb.2).1 rfl
        refine ⟨fun h => by simp at h, fun _ => ⟨p, d, ?_⟩⟩
        rw [h2]
        simp [purge_push]

end compaction

open compaction in
/-- C2 (amended): on a valid stream, a partition whose every row is purged,
whose range-tombstone changes all carry a timestamp at most the purge
threshold returned by the oracle for the partition's key, and whose partition
tombstone, if any, has a timestamp at most that threshold, adds zero fragments
to the output: no partition-start, no partition-end, nothing in between. -/
theorem purged_partition_emits_nothing (source reader : mutation_stream_source) (ct : Nat)
    (oracle : Nat → Int) (fwd : streamed_mutation.forwarding) (s : List mutation_fragment)
    (parts : List partition) (P : partition)
    (hmk : make_compacting_reader source ct oracle fwd = .ok reader)
    (hs : source.production = .ok s) (hv : valid_stream s = true)
    (hparse : parse_partitions s = some parts) (hP : P ∈ parts)
    (hrows : ∀ pre f post, coalesce P.body = pre ++ f :: post → f.is_row = true →
      compact_row P.tomb (oracle P.key) (open_after_all none pre) f = none)
    (hranges : ∀ pos k d, mutation_fragment.range_tombstone_change pos k d ∈ P.body →
      d.timestamp ≤ oracle P.key)
    (htomb : ∀ d, P.tomb = some d → d.timestamp ≤ oracle P.key) :
    reader.production
        = .ok ((parts.map (fun p => compact_partition ct (oracle p.key) p)).flatten)
      ∧ compact_partition ct (oracle P.key) P = [] := by
  refine ⟨reader_production hmk hs hparse hv, ?_⟩
  have hkinds := parse_partitions_body hparse hP
  have hvb := valid_partitions_body (valid_stream_partitions hparse hv) hP
  have hbal : balanced none P.body = true := by
    unfold valid_body at hvb
    simp only [Bool.and_eq_true] at hvb
    exact hvb.2
  have h1 : compact_rows P.tomb (oracle P.key) none (coalesce P.body)
      = P.body.filter mutation_fragment.is_range_change := by
    rw [compact_rows_all_purged _ _ (coalesce_body_kinds hkinds) hrows,
      filter_range_change_coalesce]
  have h2 : purge_ranges (oracle P.key) (P.body.filter mutation_fragment.is_range_change)
      = [] := by
    refine (purge_ranges_all _ none ?_ ?_).1 rfl
    · intro f hf
      rw [List.mem_filter] at hf
      cases f with
      | range_tombstone_change p k d => exact ⟨p, k, d, rfl, hranges p k d hf.1⟩
      | partition_start k t => simp [mutation_fragment.is_range_change] at hf
      | static_row c => simp [mutation_fragment.is_range_change] at hf
      | clustered_row p t c => simp [mutation_fragment.is_range_change] at hf
      | partition_end => simp [mutation_fragment.is_range_change] at hf
    · rw [balanced_filter]; exact hbal
  have h3 : compact_body P.tomb (oracle P.key) P.body = [] := by
    unfold compact_body
    rw [h1, h2]
    rfl
  have h4 : tombstone_survives (oracle P.key) P.tomb = false := by
    cases ht : P.tomb with
    | none => rfl
    | some d =>
      simp only [tombstone_survives, decide_eq_false_iff_not, not_lt]
      exact htomb d ht
  unfold compact_partition
  simp [h3, h4]

/-! ## Concrete streams -/

open compaction mutation_fragment bound_kind in
/-- C2 as stated fails: with purge threshold 10 the only row of the
partition is purged and there is no partition tombstone, yet the range
tombstone written at 20 is retained, so the partition is emitted with its
partition-start and partition-end. -/
theorem purged_rows_counterexample :
    valid_stream live_range_stream = true
      ∧ compact_row none 10 (some ⟨20, 0⟩) (clustered_row 2 none [⟨0, 3, 0⟩]) = none
      ∧ (make_compacting_reader (source_of live_range_stream) 0 (fun _ => 10) .no).map
          (fun r => r.production)
        = .ok (.ok [partition_start 1 none,
                    range_tombstone_change 1 range_start ⟨20, 0⟩,
                    range_tombstone_change 5 range_end ⟨20, 0⟩,
                    partition_end]) :=
  ⟨rfl, rfl, rfl⟩

open compaction mutation_fragment bound_kind in
/-- C3 as stated fails: two rows target clustering position 7, both hold
only a cell shadowed by the partition tombstone and at most the purge
threshold, and the reader emits no fragment at that position (here, none at
all). -/
theorem duplicates_counterexample :
    valid_stream purged_duplicates_stream = true
      ∧ (make_compacting_reader (source_of purged_duplicates_stream) 0 (fun _ => 10) .no).map
          (fun r => r.production)
        = .ok (.ok []) :=
  ⟨rfl, rfl⟩

open compaction mutation_fragment bound_kind in
/-- Scenario 1 of section 8 is a partition that emits nothing. -/
theorem purged_partition_witness :
    (make_compacting_reader (source_of purged_row_stream) 0 (fun _ => 10) .no).map
        (fun r => r.production) = .ok (.ok [])
      ∧ compact_partition 0 10 ⟨1, some ⟨5, 0⟩, [clustered_row 7 none [⟨0, 3, 0⟩]]⟩ = [] := by
  have h := purged_partition_emits_nothing (source_of purged_row_stream)
    { source_of purged_row_stream with production := .ok [] } 0 (fun _ => 10) .no
    purged_row_stream [⟨1, some ⟨5, 0⟩, [clustered_row 7 none [⟨0, 3, 0⟩]]⟩]
    ⟨1, some ⟨5, 0⟩, [clustered_row 7 none [⟨0, 3, 0⟩]]⟩
    rfl rfl rfl rfl (List.mem_singleton.2 rfl)
    (by
      intro pre f post hb hf
      cases pre with
      | nil =>
        simp only [coalesce, coalesce_push, List.foldr, List.nil_append, List.cons.injEq] at hb
        rw [← hb.1]
        rfl
      | cons x pre =>
        simp [coalesce, coalesce_push, List.foldr] at hb)
    (by intro pos k d hmem; simp at hmem)
    (by
      intro d hd
      simp only [Option.some.injEq] at hd
      rw [← hd]
      decide)
  exact ⟨rfl, h.2⟩

open compaction mutation_fragment bound_kind in
/-- Scenario 3 of section 8: the two rows at position 7 come out as one row
whose cell carries the higher timestamp 9. -/
theorem duplicates_witness :
    (compact_partition 0 2
        ⟨1, none, [clustered_row 7 none [⟨0, 7, 0⟩], clustered_row 7 none [⟨0, 9, 0⟩]]⟩).filter
          (same_position (clustered_row 7 none [⟨0, 7, 0⟩]))
      = [clustered_row 7 none [⟨0, 9, 0⟩]] := by
  have h := duplicates_coalesce_into_one (source_of duplicates_stream)
    { source_of duplicates_stream with
      production := .ok [partition_start 1 none, clustered_row 7 none [⟨0, 9, 0⟩],
        partition_end] }
    0 (fun _ => 2) .no duplicates_stream
    [⟨1, none, [clustered_row 7 none [⟨0, 7, 0⟩], clustered_row 7 none [⟨0, 9, 0⟩]]⟩]
    ⟨1, none, [clustered_row 7 none [⟨0, 7, 0⟩], clustered_row 7 none [⟨0, 9, 0⟩]]⟩
    [] [] 7 none none [⟨0, 7, 0⟩] [⟨0, 9, 0⟩]
    rfl rfl rfl rfl (List.mem_singleton.2 rfl) rfl
    (by intro x hx; simp at hx) (by intro x hx; simp at hx)
    (by simp) (by simp)
  exact h.2.1.trans rfl

/-! ## Concrete runs of the adapter and of the lookups -/

open db.functions stateless_aggregate_function_adapter in
/-- The reducible variant of a counting aggregate with a doubling final
function: fed two rows it computes the raw count 2, and the original computes
the doubled count 4. -/
theorem reducible_variant_witness :
    ∃ R, (create doubled_count false).reducible_aggregate_function = some R
      ∧ R.return_type = "bigint"
      ∧ (R.new_aggregate.add_inputs [[some [7]], [some [8]]]).compute = some [2]
      ∧ ((create doubled_count false).new_aggregate.add_inputs
          [[some [7]], [some [8]]]).compute = some [4] := by
  obtain ⟨R, h1, _, _, h4, _, h6⟩ :=
    (reducible_variant_computes_raw_accumulator doubled_count).1 rfl
  obtain ⟨_, h7, h8⟩ := h6 [[some [7]], [some [8]]]
  refine ⟨R, h1, h4, h7.trans rfl, ?_⟩
  rw [h8, h7]
  rfl

open auth in
/-- With the default superuser and one other superuser in the table, some
non-default role is a superuser. -/
theorem any_nondefault_role_row_satisfies_witness :
    any_nondefault_role_row_satisfies scylla_constants two_role_processor row_is_superuser
      = .ok true := by
  obtain ⟨b, hb, hiff, _, _⟩ :=
    any_nondefault_role_row_satisfies_iff scylla_constants two_role_processor row_is_superuser
      [cassandra_row, alice_row] rfl
  have hbt : b = true :=
    hiff.2 ⟨alice_row, List.mem_cons_of_mem _ (List.mem_singleton.2 rfl), by decide, rfl⟩
  rw [hb, hbt]

open auth in
/-- When the default superuser is seen at QUORUM only, both queries are
issued and the predicate decides on the QUORUM row. -/
theorem default_role_row_satisfies_witness :
    default_role_row_satisfies scylla_constants quorum_only_processor row_is_superuser
      = ([.query (default_role_query scylla_constants) .ONE ["cassandra"] .yes,
          .query (default_role_query scylla_constants) .QUORUM ["cassandra"] .yes,
          .predicate cassandra_row], .ok true) :=
  (default_role_row_satisfies_cases scylla_constants quorum_only_processor
    row_is_superuser).2.1 [cassandra_row] cassandra_row rfl rfl (by simp) rfl
